import Mathlib

/-!
Verification of the my_git content-addressable object store.

This file embeds the object model (Blob / Tree / Commit), the codec
(serialization, SHA-1 addressing), the delta engine, the object store
(read / write) and the commit walker of the repository as executable Lean
definitions, and proves or refutes the specification claims about them.

Python byte strings are modelled as `List Nat` (each element a byte value),
Python text strings as `List Char` (a Python `str` is a sequence of code
points).  Machine-level 32-bit arithmetic is modelled on `Nat` with explicit
reduction modulo 2^32.
-/

set_option maxRecDepth 100000

/-- Bytes of a Python `bytes` value. -/
abbrev ByteSeq := List Nat

/-- Code points of a Python `str` value. -/
abbrev PyStr := List Char

/-- The code points of a Lean string literal, used to write Python strings. -/
def chars (s : String) : PyStr := s.data

/-- UTF-8 encoding of a single code point (as produced by `str.encode()`). -/
def utf8Char (n : Nat) : List Nat :=
  if n < 0x80 then [n]
  else if n < 0x800 then
    [0xC0 + n / 64, 0x80 + n % 64]
  else if n < 0x10000 then
    [0xE0 + n / 4096, 0x80 + n / 64 % 64, 0x80 + n % 64]
  else
    [0xF0 + n / 262144, 0x80 + n / 4096 % 64, 0x80 + n / 64 % 64, 0x80 + n % 64]

/-- UTF-8 encoding of a Python string given as code points. -/
def utf8OfChars (s : PyStr) : ByteSeq := (s.map (fun c => utf8Char c.toNat)).flatten

/-- UTF-8 bytes of a Lean string literal (Python `"...".encode()`). -/
def strBytes (s : String) : ByteSeq := utf8OfChars (chars s)

/-- Digits of `n` in base 10, most significant first; empty for 0.
Fuel-recursive (each step divides by 10, so `fuel = n` suffices) so that the
kernel can evaluate it. -/
def natCharsGo : Nat → Nat → PyStr
  | 0, _ => []
  | fuel + 1, n => if n = 0 then [] else natCharsGo fuel (n / 10) ++ [Char.ofNat (48 + n % 10)]

/-- Decimal digits of a natural number, as code points (Python `str(n)`). -/
def natChars (n : Nat) : PyStr := if n = 0 then chars "0" else natCharsGo n n

/-- Decimal rendering of a Python `int` (possibly negative), as code points. -/
def intChars (i : Int) : PyStr := if i < 0 then '-' :: natChars i.natAbs else natChars i.natAbs

/-- Index of the first occurrence of byte `b`, if any (Python `bytes.find`). -/
def findByte (b : Nat) : ByteSeq → Option Nat
  | [] => none
  | x :: xs =>
    if x = b then some 0
    else match findByte b xs with
      | none => none
      | some i => some (i + 1)

/-- Lower-case hex digit for a value below 16. -/
def hexDigit (n : Nat) : Char :=
  if n < 10 then Char.ofNat (48 + n) else Char.ofNat (87 + n)

/-- Lower-case hex rendering of a byte sequence, as code points
(Python `bytes.hex()`). -/
def bytesHexChars : ByteSeq → PyStr
  | [] => []
  | b :: bs => hexDigit (b / 16 % 16) :: hexDigit (b % 16) :: bytesHexChars bs

/-- Lower-case hex rendering of a byte sequence as a Lean string. -/
def bytesHex (bs : ByteSeq) : String := String.mk (bytesHexChars bs)

/-- Value of one hex digit (upper or lower case; junk digits give 0 —
Python `bytes.fromhex` raises there, and every use below is guarded by a
well-formedness hypothesis or concrete input). -/
def hexVal (c : Char) : Nat :=
  if 48 ≤ c.toNat ∧ c.toNat ≤ 57 then c.toNat - 48
  else if 97 ≤ c.toNat ∧ c.toNat ≤ 102 then c.toNat - 87
  else if 65 ≤ c.toNat ∧ c.toNat ≤ 70 then c.toNat - 55
  else 0

/-- `bytes.fromhex` on a hex string of even length. -/
def hexDecodeC : PyStr → ByteSeq
  | a :: b :: rest => (hexVal a * 16 + hexVal b) :: hexDecodeC rest
  | _ => []

/-! ## SHA-1 (RFC 3174), on `Nat` with explicit 32-bit reduction. -/

/-- Reduce to a 32-bit word. -/
def w32 (n : Nat) : Nat := n % 4294967296

/-- Left rotation of a 32-bit word by `b` bits. -/
def rotl (b n : Nat) : Nat := w32 (n * 2 ^ b + n / 2 ^ (32 - b))

/-- Bitwise complement of a 32-bit word. -/
def wnot (n : Nat) : Nat := n ^^^ 4294967295

/-- Big-endian 4-byte group to 32-bit words. -/
def bytesToWords : ByteSeq → List Nat
  | b0 :: b1 :: b2 :: b3 :: rest => (((b0 * 256 + b1) * 256 + b2) * 256 + b3) :: bytesToWords rest
  | _ => []

/-- Big-endian 8-byte encoding of a (64-bit) length. -/
def be8 (n : Nat) : ByteSeq :=
  [n / 2 ^ 56 % 256, n / 2 ^ 48 % 256, n / 2 ^ 40 % 256, n / 2 ^ 32 % 256,
   n / 2 ^ 24 % 256, n / 2 ^ 16 % 256, n / 2 ^ 8 % 256, n % 256]

/-- SHA-1 padding: `0x80`, zeros to 56 mod 64, then the bit length. -/
def sha1Pad (msg : ByteSeq) : ByteSeq :=
  msg ++ [0x80] ++ List.replicate ((119 - msg.length % 64) % 64) 0 ++ be8 (msg.length * 8)

/-- Split into 64-byte blocks (fuel-recursive so the kernel can evaluate;
each step consumes 64 bytes, so `fuel = length` suffices). -/
def chunks64Go : Nat → ByteSeq → List ByteSeq
  | 0, _ => []
  | _, [] => []
  | fuel + 1, x :: xs => ((x :: xs).take 64) :: chunks64Go fuel ((x :: xs).drop 64)

/-- Split into 64-byte blocks. -/
def chunks64 (l : ByteSeq) : List ByteSeq := chunks64Go l.length l

/-- Extend the 16 message words of a block by `k` further schedule words. -/
def extendWords (ws : List Nat) : Nat → List Nat
  | 0 => ws
  | k + 1 =>
    let n := ws.length
    let w := rotl 1 (ws.getD (n - 3) 0 ^^^ ws.getD (n - 8) 0 ^^^ ws.getD (n - 14) 0 ^^^ ws.getD (n - 16) 0)
    extendWords (ws ++ [w]) k

/-- SHA-1 round function. -/
def sha1F (i b c d : Nat) : Nat :=
  if i < 20 then (b &&& c) ||| (wnot b &&& d)
  else if i < 40 then b ^^^ c ^^^ d
  else if i < 60 then (b &&& c) ||| (b &&& d) ||| (c &&& d)
  else b ^^^ c ^^^ d

/-- SHA-1 round constants. -/
def sha1K (i : Nat) : Nat :=
  if i < 20 then 0x5A827999
  else if i < 40 then 0x6ED9EBA1
  else if i < 60 then 0x8F1BBCDC
  else 0xCA62C1D6

/-- Process one 64-byte block. -/
def sha1Block (h : Nat × Nat × Nat × Nat × Nat) (block : ByteSeq) : Nat × Nat × Nat × Nat × Nat :=
  let ws := extendWords (bytesToWords block) 64
  let ⟨h0, h1, h2, h3, h4⟩ := h
  let fin := (List.range 80).foldl
    (fun (st : Nat × Nat × Nat × Nat × Nat) i =>
      let ⟨a, b, c, d, e⟩ := st
      let t := w32 (rotl 5 a + sha1F i b c d + e + sha1K i + ws.getD i 0)
      (t, a, rotl 30 b, c, d))
    (h0, h1, h2, h3, h4)
  let ⟨a, b, c, d, e⟩ := fin
  (w32 (h0 + a), w32 (h1 + b), w32 (h2 + c), w32 (h3 + d), w32 (h4 + e))

/-- Big-endian bytes of a 32-bit word. -/
def wordBytes (n : Nat) : ByteSeq :=
  [n / 2 ^ 24 % 256, n / 2 ^ 16 % 256, n / 2 ^ 8 % 256, n % 256]

/-- SHA-1 digest (20 bytes) of a byte sequence. -/
def sha1Bytes (msg : ByteSeq) : ByteSeq :=
  let ⟨h0, h1, h2, h3, h4⟩ := (chunks64 (sha1Pad msg)).foldl sha1Block
    (0x67452301, 0xEFCDAB89, 0x98BADCFE, 0x10325476, 0xC3D2E1F0)
  wordBytes h0 ++ wordBytes h1 ++ wordBytes h2 ++ wordBytes h3 ++ wordBytes h4

/-- SHA-1 digest as a 40-character lower-case hex string
(`GitObject.get_hash` with the default algorithm). -/
def sha1Hex (msg : ByteSeq) : String := bytesHex (sha1Bytes msg)

/-! ## Delta engine (`src/utils/compression.py`, `DeltaCompression`) -/

/-- Length of the common prefix of two byte sequences
(the first `while` loop of `create_delta`). -/
def commonPrefixLen : ByteSeq → ByteSeq → Nat
  | a :: as, b :: bs => if a = b then commonPrefixLen as bs + 1 else 0
  | _, _ => 0

/-- Length of the common prefix of two byte sequences, stopped at `bound`
(the suffix `while` loop of `create_delta`, run on the reversed inputs). -/
def commonPrefixLenBounded : ByteSeq → ByteSeq → Nat → Nat
  | a :: as, b :: bs, k + 1 => if a = b then commonPrefixLenBounded as bs k + 1 else 0
  | _, _, _ => 0

/-- Big-endian 4-byte encoding (`struct.pack('>I', n)`; `struct.pack` raises
for `n ≥ 2^32`, so theorems carry that bound as a hypothesis). -/
def be4 (n : Nat) : ByteSeq :=
  [n / 2 ^ 24 % 256, n / 2 ^ 16 % 256, n / 2 ^ 8 % 256, n % 256]

/-- Big-endian 4-byte decoding (`struct.unpack('>I', ...)`; every call site
guards the length, so the fallback for short inputs is unreachable). -/
def readBE4 (bs : ByteSeq) : Nat :=
  match bs with
  | b0 :: b1 :: b2 :: b3 :: _ => ((b0 * 256 + b1) * 256 + b2) * 256 + b3
  | _ => 0

/-- The bytes of `b'same'`. -/
def sameBytes : ByteSeq := strBytes "same"

/-- `DeltaCompression.create_delta`. -/
def create_delta (base_data target_data : ByteSeq) : ByteSeq :=
  if base_data = target_data then sameBytes
  else
    let prefix_len := commonPrefixLen base_data target_data
    let suffix_len := commonPrefixLenBounded base_data.reverse target_data.reverse
      (min (base_data.length - prefix_len) (target_data.length - prefix_len))
    let middle_target :=
      if suffix_len > 0 then
        (target_data.drop prefix_len).take (target_data.length - suffix_len - prefix_len)
      else target_data.drop prefix_len
    be4 base_data.length ++ be4 target_data.length
      ++ (if prefix_len > 0 then 0x01 :: (be4 0 ++ be4 prefix_len) else [])
      ++ (if middle_target ≠ [] then 0x02 :: be4 middle_target.length ++ middle_target else [])
      ++ (if suffix_len > 0 then
            0x01 :: (be4 (base_data.length - suffix_len) ++ be4 suffix_len) else [])

/-- The instruction loop of `DeltaCompression.apply_delta` (its `while`). -/
def applyLoop (base_data : ByteSeq) (instrs : ByteSeq) (result : ByteSeq) :
    Except String ByteSeq :=
  match instrs with
  | [] => .ok result
  | opcode :: rest =>
    if opcode = 0x01 then
      if rest.length < 8 then .error "Invalid copy instruction"
      else
        let offset := readBE4 (rest.take 4)
        let length := readBE4 ((rest.drop 4).take 4)
        applyLoop base_data (rest.drop 8) (result ++ (base_data.drop offset).take length)
    else if opcode = 0x02 then
      if rest.length < 4 then .error "Invalid insert instruction"
      else
        let length := readBE4 (rest.take 4)
        if rest.length - 4 < length then .error "Insert data truncated"
        else applyLoop base_data (rest.drop (4 + length)) (result ++ (rest.drop 4).take length)
    else .error "Unknown delta opcode"
termination_by instrs.length
decreasing_by all_goals simp; omega

/-- `DeltaCompression.apply_delta` (the two header words of `'>II'` are read
at their use sites; on any input reaching them the slices are 4 bytes). -/
def apply_delta (base_data delta : ByteSeq) : Except String ByteSeq :=
  if delta = sameBytes then .ok base_data
  else if delta.length < 8 then .error "Invalid delta: too short"
  else if base_data.length ≠ readBE4 (delta.take 4) then .error "Base size mismatch"
  else
    match applyLoop base_data (delta.drop 8) [] with
    | .error e => .error e
    | .ok result =>
      if result.length ≠ readBE4 ((delta.drop 4).take 4) then .error "Target size mismatch"
      else .ok result

/-- Decidable equality for `Except` results, so concrete runs can be checked
by `decide`. -/
instance {ε α : Type} [DecidableEq ε] [DecidableEq α] : DecidableEq (Except ε α) := fun a b =>
  match a, b with
  | .error e, .error f =>
    if h : e = f then isTrue (congrArg Except.error h)
    else isFalse fun hc => h (Except.error.inj hc)
  | .error _, .ok _ => isFalse fun hc => Except.noConfusion hc
  | .ok _, .error _ => isFalse fun hc => Except.noConfusion hc
  | .ok x, .ok y =>
    if h : x = y then isTrue (congrArg Except.ok h)
    else isFalse fun hc => h (Except.ok.inj hc)

/-! ## Python string and integer primitives -/

/-- Accumulating decimal parse: fails on the first non-digit
(the digit-consuming core of Python `int(str)`). -/
def digitsValGo (acc : Nat) : PyStr → Option Nat
  | [] => some acc
  | c :: rest => if c.isDigit then digitsValGo (acc * 10 + (c.toNat - 48)) rest else none

/-- Python `int(s)` on a string of an optional sign followed by digits.
(CPython also tolerates surrounding whitespace and inner underscores; no
input in this development uses them.) -/
def pyInt (s : PyStr) : Option Int :=
  match s with
  | [] => none
  | c :: rest =>
    if c = '-' then
      if rest = [] then none else (digitsValGo 0 rest).map (fun n => -(n : Int))
    else if c = '+' then
      if rest = [] then none else (digitsValGo 0 rest).map (fun n => (n : Int))
    else (digitsValGo 0 (c :: rest)).map (fun n => (n : Int))

/-- Python `int(bytes)`: the bytes are decoded as ASCII first. -/
def pyIntBytes (l : ByteSeq) : Option Int :=
  if l.all (· < 128) then pyInt (l.map Char.ofNat) else none

/-- Python `str.split(sep)` for a one-character separator (identical to
`List.splitOn`: pieces between occurrences of the separator, `[[]]` for the
empty string). -/
def splitOnChar (sep : Char) (s : PyStr) : List PyStr := s.splitOn sep

/-- Python `str.rsplit(' ', 2)`. -/
def rsplitSpace2 (info : PyStr) : List PyStr :=
  let parts := splitOnChar ' ' info
  if parts.length ≥ 3 then
    [List.intercalate [' '] parts.dropLast.dropLast,
     parts.getD (parts.length - 2) [], parts.getD (parts.length - 1) []]
  else parts

/-- Python whitespace for `str.strip()` (the ASCII part; exotic Unicode
space classes do not occur in this development). -/
def pySpace (c : Char) : Bool :=
  c = ' ' ∨ c = '\t' ∨ c = '\n' ∨ c = '\r' ∨ c = '\x0b' ∨ c = '\x0c'

/-- Python `str.strip()`. -/
def pyStrip (s : PyStr) : PyStr :=
  ((s.dropWhile pySpace).reverse.dropWhile pySpace).reverse

/-! ## UTF-8 decoding

`bytes.decode('utf-8', errors='replace')`, fuel-recursive (each decoded
character consumes at least one byte, so `fuel = length` always suffices).
On malformed input CPython replaces each maximal invalid subsequence; this
model replaces per invalid byte, which agrees on valid input — the only
kind reaching the byte-level theorems below. -/
def utf8DecodeRGo : Nat → ByteSeq → PyStr
  | 0, _ => []
  | _, [] => []
  | fuel + 1, b :: rest =>
    if b < 0x80 then Char.ofNat b :: utf8DecodeRGo fuel rest
    else if 0xC2 ≤ b ∧ b ≤ 0xDF then
      match rest with
      | c1 :: rest2 =>
        if 0x80 ≤ c1 ∧ c1 ≤ 0xBF then
          Char.ofNat ((b - 0xC0) * 64 + (c1 - 0x80)) :: utf8DecodeRGo fuel rest2
        else Char.ofNat 0xFFFD :: utf8DecodeRGo fuel rest
      | [] => [Char.ofNat 0xFFFD]
    else if 0xE0 ≤ b ∧ b ≤ 0xEF then
      match rest with
      | c1 :: c2 :: rest3 =>
        if (0x80 ≤ c1 ∧ c1 ≤ 0xBF) ∧ (0x80 ≤ c2 ∧ c2 ≤ 0xBF)
            ∧ (b ≠ 0xE0 ∨ 0xA0 ≤ c1) ∧ (b ≠ 0xED ∨ c1 ≤ 0x9F) then
          Char.ofNat ((b - 0xE0) * 4096 + (c1 - 0x80) * 64 + (c2 - 0x80))
            :: utf8DecodeRGo fuel rest3
        else Char.ofNat 0xFFFD :: utf8DecodeRGo fuel rest
      | _ => Char.ofNat 0xFFFD :: utf8DecodeRGo fuel rest
    else if 0xF0 ≤ b ∧ b ≤ 0xF4 then
      match rest with
      | c1 :: c2 :: c3 :: rest4 =>
        if (0x80 ≤ c1 ∧ c1 ≤ 0xBF) ∧ (0x80 ≤ c2 ∧ c2 ≤ 0xBF) ∧ (0x80 ≤ c3 ∧ c3 ≤ 0xBF)
            ∧ (b ≠ 0xF0 ∨ 0x90 ≤ c1) ∧ (b ≠ 0xF4 ∨ c1 ≤ 0x8F) then
          Char.ofNat ((b - 0xF0) * 262144 + (c1 - 0x80) * 4096 + (c2 - 0x80) * 64 + (c3 - 0x80))
            :: utf8DecodeRGo fuel rest4
        else Char.ofNat 0xFFFD :: utf8DecodeRGo fuel rest
      | _ => Char.ofNat 0xFFFD :: utf8DecodeRGo fuel rest
    else Char.ofNat 0xFFFD :: utf8DecodeRGo fuel rest

/-- `bytes.decode('utf-8', errors='replace')`. -/
def utf8DecodeReplace (l : ByteSeq) : PyStr := utf8DecodeRGo l.length l

/-- Strict `bytes.decode('utf-8')`, characterized as: decoding introduced no
replacement character and re-encoding reproduces the input. -/
def utf8DecodeStrict (l : ByteSeq) : Option PyStr :=
  let s := utf8DecodeReplace l
  if utf8OfChars s = l ∧ ¬ s.contains (Char.ofNat 0xFFFD) then some s else none

/-- Strict `bytes.decode('ascii')`. -/
def asciiDecodeStrict (l : ByteSeq) : Option PyStr :=
  if l.all (· < 128) then some (l.map Char.ofNat) else none

/-! ## Header framing (`GitObject.create_header` / `parse_header`) -/

/-- `GitObject.parse_header`: decode, split at the first NUL, split
`"<type> <size>"` on spaces (exactly two pieces), parse the size. -/
def parse_header (header_data : ByteSeq) : Except Unit (PyStr × Int) :=
  match utf8DecodeStrict header_data with
  | none => .error ()
  | some header_str =>
    if ¬ header_str.contains '\x00' then .error ()
    else
      let type_size_part := (splitOnChar '\x00' header_str).headD []
      let parts := splitOnChar ' ' type_size_part
      if parts.length ≠ 2 then .error ()
      else
        match pyInt (parts.getD 1 []) with
        | none => .error ()
        | some size => .ok (parts.getD 0 [], size)

/-! ## Blob (`src/objects/blob.py`) -/

/-- `Blob`: `data` is `none` for Python `None`. -/
structure BlobL where
  data : Option ByteSeq
deriving DecidableEq

/-- `Blob.serialize`: `b"blob <len>\0" ++ data`. -/
def blob_serialize (b : BlobL) : ByteSeq :=
  let data_bytes := b.data.getD []
  strBytes "blob " ++ utf8OfChars (natChars data_bytes.length) ++ [0] ++ data_bytes

/-- `Blob.deserialize`. -/
def blob_deserialize (data : ByteSeq) : Except Unit BlobL :=
  if data = [] then .ok ⟨some []⟩
  else
    match findByte 0 data with
    | none => .error ()
    | some null_pos =>
      match parse_header (data.take null_pos ++ [0]) with
      | .error _ => .error ()
      | .ok (obj_type, size) =>
        if obj_type ≠ chars "blob" then .error ()
        else
          let content := data.drop (null_pos + 1)
          if (content.length : Int) ≠ size then .error ()
          else .ok ⟨some content⟩

/-! ## Tree (`src/objects/tree.py`) -/

/-- `TreeEntry` (the optional `symlink_target` never affects encoding,
equality or hashing and is omitted). -/
structure TreeEntryL where
  mode : PyStr
  name : PyStr
  sha : PyStr
deriving DecidableEq

/-- The closed mode enumeration `TreeEntry.MODE_TO_TYPE`. -/
def validModes : List PyStr :=
  [chars "40000", chars "100644", chars "100755", chars "120000", chars "160000"]

/-- `TreeEntry.serialize`: `f"{mode} {name}\0".encode() + bytes.fromhex(sha)`. -/
def treeEntry_serialize (e : TreeEntryL) : ByteSeq :=
  utf8OfChars (e.mode ++ [' '] ++ e.name) ++ [0] ++ hexDecodeC e.sha

/-- `TreeEntry.deserialize`: returns the entry and the bytes consumed. -/
def treeEntry_deserialize (data : ByteSeq) : Except Unit (TreeEntryL × Nat) :=
  if data.length < 22 then .error ()
  else
    match findByte 32 data with
    | none => .error ()
    | some space_pos =>
      match findByte 0 (data.drop space_pos) with
      | none => .error ()
      | some rel =>
        let null_pos := space_pos + rel
        let mode := utf8DecodeReplace (data.take space_pos)
        let name := utf8DecodeReplace ((data.drop (space_pos + 1)).take (null_pos - (space_pos + 1)))
        let sha_end := null_pos + 1 + 20
        if sha_end > data.length then .error ()
        else
          let sha := bytesHexChars ((data.drop (null_pos + 1)).take 20)
          if ¬ validModes.contains mode then .error ()
          else if name = [] ∨ name.contains '/' ∨ name = chars "." ∨ name = chars ".." then
            .error ()
          else .ok (⟨mode, name, sha⟩, sha_end)

/-- The entry-parsing `while` loop of `Tree.deserialize`, with a duplicate
check against the names seen so far.  Fuel-recursive: every successful entry
parse consumes at least 21 bytes, so `fuel = length` always suffices. -/
def treeEntriesParseGo : Nat → ByteSeq → List PyStr → Except Unit (List TreeEntryL)
  | _, [], _ => .ok []
  | 0, _ :: _, _ => .error ()
  | fuel + 1, remaining, seen =>
    match treeEntry_deserialize remaining with
    | .error _ => .error ()
    | .ok (entry, consumed) =>
      if seen.contains entry.name then .error ()
      else
        match treeEntriesParseGo fuel (remaining.drop consumed) (entry.name :: seen) with
        | .error _ => .error ()
        | .ok rest => .ok (entry :: rest)

/-- `Tree.serialize`: entries sorted by name (Python's stable `sorted`,
modelled by the stable `insertionSort`), then `b"tree <len>\0" ++ body`. -/
def tree_serialize (entries : List TreeEntryL) : ByteSeq :=
  let sorted_entries := entries.insertionSort (fun a b => a.name ≤ b.name)
  let entries_data := (sorted_entries.map treeEntry_serialize).flatten
  strBytes "tree " ++ utf8OfChars (natChars entries_data.length) ++ [0] ++ entries_data

/-- `Tree.deserialize`. -/
def tree_deserialize (data : ByteSeq) : Except Unit (List TreeEntryL) :=
  if data = [] then .ok []
  else
    match findByte 0 data with
    | none => .error ()
    | some null_pos =>
      match parse_header (data.take null_pos ++ [0]) with
      | .error _ => .error ()
      | .ok (obj_type, size) =>
        if obj_type ≠ chars "tree" then .error ()
        else
          let entries_data := data.drop (null_pos + 1)
          if (entries_data.length : Int) ≠ size then .error ()
          else treeEntriesParseGo entries_data.length entries_data []

/-- Python `dict` insertion: overwrite in place or append. -/
def pyDictInsert {α : Type} (d : List (PyStr × α)) (k : PyStr) (v : α) : List (PyStr × α) :=
  if d.any (fun kv => kv.1 = k) then
    d.map (fun kv => if kv.1 = k then (k, v) else kv)
  else d ++ [(k, v)]

/-- A Python dict comprehension `{e.name: e for e in entries}`. -/
def pyDictOfEntries (es : List TreeEntryL) : List (PyStr × TreeEntryL) :=
  es.foldl (fun d e => pyDictInsert d e.name e) []

/-- Python `d1.update(d2)` / `{**d1, **d2}`. -/
def pyDictUpdate {α : Type} (d1 d2 : List (PyStr × α)) : List (PyStr × α) :=
  d2.foldl (fun d kv => pyDictInsert d kv.1 kv.2) d1

/-- `Tree.merge`: returns the merged entry list (`result.entries`, the dict
values in order), or an error for a union conflict or unknown strategy. -/
def tree_merge (self other : List TreeEntryL) (strategy : String) :
    Except Unit (List TreeEntryL) :=
  if strategy = "ours" then
    .ok ((pyDictUpdate (pyDictOfEntries self) (pyDictOfEntries other)).map Prod.snd)
  else if strategy = "theirs" then
    .ok ((pyDictUpdate (pyDictOfEntries other) (pyDictOfEntries self)).map Prod.snd)
  else if strategy = "union" then
    let our_entries := pyDictOfEntries self
    let their_entries := pyDictOfEntries other
    let conflicting_different := our_entries.filter
      (fun kv => their_entries.any (fun kv2 => kv2.1 = kv.1 ∧ kv2.2.sha ≠ kv.2.sha))
    if conflicting_different ≠ [] then .error ()
    else .ok ((pyDictUpdate our_entries their_entries).map Prod.snd)
  else .error ()

/-! ## Commit (`src/objects/commit.py`) -/

/-- `Commit` fields that take part in encoding (formatting helpers such as
templates-by-name and changelog styles carry no persistent state). -/
structure CommitL where
  tree : PyStr
  parents : List PyStr
  author : PyStr
  committer : PyStr
  message : PyStr
  timestamp : Int
  timezone : PyStr
  gpgsig : Option PyStr
  notes : List PyStr
  extraHeaders : List (PyStr × PyStr)
  template : Option PyStr
deriving DecidableEq

/-- `Commit._format_person_info`. -/
def person_info (person : PyStr) (timestamp : Int) (timezone : PyStr) : PyStr :=
  person ++ [' '] ++ intChars timestamp ++ [' '] ++ timezone

/-- The `lines` list built by `Commit.serialize` (note: both the author and
the committer line carry the commit's single `timestamp`/`timezone` pair;
`if self.gpgsig:` / `if self.template:` treat the empty string as absent). -/
def commit_lines (c : CommitL) : List PyStr :=
  [chars "tree " ++ c.tree]
    ++ c.parents.map (fun p => chars "parent " ++ p)
    ++ [chars "author " ++ person_info c.author c.timestamp c.timezone,
        chars "committer " ++ person_info c.committer c.timestamp c.timezone]
    ++ c.extraHeaders.map (fun kv => kv.1 ++ [' '] ++ kv.2)
    ++ (match c.gpgsig with
        | none => []
        | some g => if g = [] then [] else [chars "gpgsig " ++ g])
    ++ c.notes.map (fun n => chars "note " ++ n)
    ++ (match c.template with
        | none => []
        | some t => if t = [] then [] else [chars "template " ++ t])
    ++ [[], c.message]

/-- `"\n".join(lines)` of `Commit.serialize`. -/
def commit_content (c : CommitL) : PyStr := List.intercalate ['\n'] (commit_lines c)

/-- `Commit.serialize`: `b"commit <len>\0" ++ content.encode()`. -/
def commit_serialize (c : CommitL) : ByteSeq :=
  let content := utf8OfChars (commit_content c)
  strBytes "commit " ++ utf8OfChars (natChars content.length) ++ [0] ++ content

/-- `Commit._parse_person_info`: `rsplit(' ', 2)` into exactly three parts,
with an integer middle part. -/
def parse_person_info (info : PyStr) : Except Unit (PyStr × Int × PyStr) :=
  let parts := rsplitSpace2 info
  if parts.length ≠ 3 then .error ()
  else
    match pyInt (parts.getD 1 []) with
    | none => .error ()
    | some ts => .ok (parts.getD 0 [], ts, parts.getD 2 [])

/-- The mutable state of the line loop in `Commit.deserialize`. -/
structure CParse where
  tree : PyStr
  parents : List PyStr
  author : PyStr
  committer : PyStr
  timestamp : Int
  timezone : PyStr
  gpgsig : Option PyStr
  notes : List PyStr
  extraHeaders : List (PyStr × PyStr)
  template : Option PyStr
  messageLines : List PyStr
  inMessage : Bool
  inGpgsig : Bool
  gpgsigLines : List PyStr
deriving DecidableEq

/-- The state at loop entry: `Commit.__init__` defaults (`timestamp` is
`int(time.time())`, passed in as `now`) plus the resets at the top of
`deserialize`. -/
def initCParse (now : Int) : CParse :=
  { tree := [], parents := [], author := [], committer := [], timestamp := now,
    timezone := chars "+0000", gpgsig := none, notes := [], extraHeaders := [],
    template := none, messageLines := [], inMessage := false, inGpgsig := false,
    gpgsigLines := [] }

/-- One iteration of the line loop of `Commit.deserialize`.  In the
"gpgsig just ended" branch the source sets `in_gpgsig = False` and then hits
the `continue` that belongs to the whole `if in_gpgsig:` block, so the
current line is dropped despite the comment "Continue processing this line". -/
def commit_step (st : CParse) (line : PyStr) : Except Unit CParse :=
  if st.inGpgsig then
    if [' '].isPrefixOf line then
      .ok { st with gpgsigLines := st.gpgsigLines ++ [line.tail] }
    else
      .ok { st with gpgsig := some (List.intercalate ['\n'] st.gpgsigLines), inGpgsig := false }
  else if st.inMessage then
    .ok { st with messageLines := st.messageLines ++ [line] }
  else if (chars "tree ").isPrefixOf line then
    .ok { st with tree := line.drop 5 }
  else if (chars "parent ").isPrefixOf line then
    .ok { st with parents := st.parents ++ [line.drop 7] }
  else if (chars "author ").isPrefixOf line then
    match parse_person_info (line.drop 7) with
    | .error _ => .error ()
    | .ok (a, ts, tz) => .ok { st with author := a, timestamp := ts, timezone := tz }
  else if (chars "committer ").isPrefixOf line then
    match parse_person_info (line.drop 10) with
    | .error _ => .error ()
    | .ok (cm, _, _) => .ok { st with committer := cm }
  else if (chars "gpgsig ").isPrefixOf line then
    .ok { st with inGpgsig := true, gpgsigLines := [line.drop 7] }
  else if (chars "note ").isPrefixOf line then
    .ok { st with notes := st.notes ++ [line.drop 5] }
  else if (chars "template ").isPrefixOf line then
    .ok { st with template := some (line.drop 9) }
  else if line = [] then
    .ok { st with inMessage := true }
  else if line.contains ' ' then
    .ok { st with extraHeaders :=
      pyDictInsert st.extraHeaders (line.takeWhile (· ≠ ' ')) ((line.dropWhile (· ≠ ' ')).tail) }
  else .ok st

/-- The line loop and epilogue of `Commit.deserialize`, on the decoded
content text. -/
def parse_commit_content (now : Int) (content : PyStr) : Except Unit CommitL :=
  match (splitOnChar '\n' content).foldlM commit_step (initCParse now) with
  | .error _ => .error ()
  | .ok st =>
    .ok { tree := st.tree, parents := st.parents, author := st.author,
          committer := st.committer,
          message := pyStrip (List.intercalate ['\n'] st.messageLines),
          timestamp := st.timestamp, timezone := st.timezone, gpgsig := st.gpgsig,
          notes := st.notes, extraHeaders := st.extraHeaders, template := st.template }

/-- `Commit.deserialize` (no type check: the commit parser only locates the
first NUL and decodes the rest with `errors='replace'`). -/
def commit_deserialize (now : Int) (data : ByteSeq) : Except Unit CommitL :=
  match findByte 0 data with
  | none => .error ()
  | some null_pos => parse_commit_content now (utf8DecodeReplace (data.drop (null_pos + 1)))

/-! ## Object factory (`src/objects/factory.py`) -/

/-- The closed union of object classes the factory can produce: the core
types plus the auto-registered `Tag` plugin (a `Commit` subclass whose
encode/decode simply delegate to `Commit`). -/
inductive GObj where
  | blob (b : BlobL)
  | tree (entries : List TreeEntryL)
  | commit (c : CommitL)
  | tag (c : CommitL)
deriving DecidableEq

/-- Dynamic dispatch of `serialize`. -/
def serializeObj : GObj → ByteSeq
  | .blob b => blob_serialize b
  | .tree es => tree_serialize es
  | .commit c => commit_serialize c
  | .tag c => commit_serialize c

/-- `GitObject.get_hash()`: lower-case hex SHA-1 of the serialization. -/
def objHash (o : GObj) : String := sha1Hex (serializeObj o)

/-- `type(obj).__name__.lower()`-style tag used for re-dispatch. -/
def typeName : GObj → String
  | .blob _ => "blob"
  | .tree _ => "tree"
  | .commit _ => "commit"
  | .tag _ => "tag"

/-- `Commit.__init__` defaults. -/
def initCommit (now : Int) : CommitL :=
  { tree := [], parents := [], author := [], committer := [], message := [],
    timestamp := now, timezone := chars "+0000", gpgsig := none, notes := [],
    extraHeaders := [], template := none }

/-- A freshly constructed object of the given registered type (`Commit`'s
constructor stamps `int(time.time())`, passed in as `now`). -/
def freshObj (now : Int) (t : String) : GObj :=
  if t = "tag" then .tag (initCommit now)
  else if t = "blob" then .blob ⟨none⟩
  else if t = "commit" then .commit (initCommit now)
  else .tree []

/-- Kind-dispatched `deserialize` (each class re-parses its own header). -/
def parseTyped (now : Int) (t : String) (data : ByteSeq) : Except Unit GObj :=
  if t = "tag" then (commit_deserialize now data).map .tag
  else if t = "blob" then (blob_deserialize data).map .blob
  else if t = "commit" then (commit_deserialize now data).map .commit
  else (tree_deserialize data).map .tree

/-- `^[a-f0-9]{40}$` (the `re.match` quirk of also accepting a trailing
newline before `$` is not modelled; no input below exercises it). -/
def isHex40 (s : PyStr) : Bool :=
  s.length = 40 && s.all (fun c => ('a' ≤ c ∧ c ≤ 'f') ∨ ('0' ≤ c ∧ c ≤ '9'))

/-- `^[+-]\d{4}$`. -/
def tzOk (s : PyStr) : Bool :=
  match s with
  | sign :: rest => (sign = '+' ∨ sign = '-') && rest.length = 4 && rest.all Char.isDigit
  | [] => false

/-- `Commit.parse_person` succeeding: `email.utils.parseaddr` returns a
non-empty name and address.  Modelled for the `"Name <email>"` shape the
code produces (parseaddr's full RFC 5322 grammar is out of scope; on inputs
without angle brackets it yields an empty name, hence failure, as here). -/
def parseAddrOk (s : PyStr) : Bool :=
  let name := pyStrip (s.takeWhile (· ≠ '<'))
  let rest := (s.dropWhile (· ≠ '<')).tail
  let email := rest.takeWhile (· ≠ '>')
  s.contains '<' && rest.contains '>' && name ≠ [] && email ≠ []

/-- `Commit._validate_internal`. -/
def commitInternalValidate (c : CommitL) : Bool :=
  isHex40 c.tree && c.parents.all isHex40 && parseAddrOk c.author && parseAddrOk c.committer
    && c.timestamp > 0 && tzOk c.timezone

/-- `_validate_internal` dispatch (`Blob` re-checks its own round-trip,
`Tree` checks name uniqueness and hex addresses, `Commit`/`Tag` check field
shapes). -/
def internalValidate : GObj → Bool
  | .blob b =>
    match b.data with
    | none => true
    | some d =>
      match blob_deserialize (blob_serialize b) with
      | .error _ => false
      | .ok t => t.data = some d
  | .tree es => decide (es.map TreeEntryL.name).Nodup && es.all (fun e => isHex40 e.sha)
  | .commit c => commitInternalValidate c
  | .tag c => commitInternalValidate c

/-- `GitObject.validate()`: serialize, re-deserialize into a fresh object of
the same class, compare hashes, then the class-specific checks; any raised
exception yields `False`. -/
def validateObj (now : Int) (o : GObj) : Bool :=
  match parseTyped now (typeName o) (serializeObj o) with
  | .error _ => false
  | .ok t => (objHash o = objHash t) && internalValidate o

/-- `ObjectFactory.create_object` (pool acquisition yields a freshly
initialized object; `if data:` skips both deserialization and validation
for empty input). -/
def create_object (now : Int) (obj_type : String) (data : ByteSeq) (validate : Bool) :
    Except Unit GObj :=
  if obj_type = "tag" ∨ obj_type = "blob" ∨ obj_type = "commit" ∨ obj_type = "tree" then
    if data = [] then .ok (freshObj now obj_type)
    else
      match parseTyped now obj_type data with
      | .error _ => .error ()
      | .ok obj => if validate ∧ ¬ validateObj now obj then .error () else .ok obj
  else .error ()

/-- Error kinds surfaced by the store paths. -/
inductive ReadErr where
  | notFound
  | validation
  | shaMismatch
  | decompress
deriving DecidableEq

/-- `ObjectFactory.read_object` after the disk bytes have been decompressed:
locate the NUL, split the header on the first space, decode the type as
ASCII, parse the declared size, compare it with the actual payload size,
build the typed object (with validation on, the default), then recompute its
address and compare it with the requested one. -/
def read_object_raw (now : Int) (sha : String) (raw : ByteSeq) : Except ReadErr GObj :=
  match findByte 0 raw with
  | none => .error .validation
  | some null_pos =>
    match findByte 32 (raw.take null_pos) with
    | none => .error .validation
    | some sp =>
      match asciiDecodeStrict ((raw.take null_pos).take sp) with
      | none => .error .validation
      | some obj_type_chars =>
        match pyIntBytes ((raw.take null_pos).drop (sp + 1)) with
        | none => .error .validation
        | some expected_size =>
          if ((raw.length - null_pos - 1 : Nat) : Int) ≠ expected_size then .error .validation
          else
            match create_object now (String.mk obj_type_chars) raw true with
            | .error _ => .error .validation
            | .ok obj =>
              if objHash obj = sha then .ok obj else .error .shaMismatch

/-! ## On-disk store (`ObjectFactory.write_object` / shard paths)

The loose-object directory is modelled as a finite map from address to the
stored compressed bytes (the path `objects/sha[:2]/sha[2:]` is in bijection
with the address).  DEFLATE lives in an external library, so the compression
and decompression functions are taken as parameters. -/
abbrev Store := List (String × ByteSeq)

/-- `path.exists()`. -/
def storeHas (s : Store) (sha : String) : Bool := s.any (fun kv => kv.1 = sha)

/-- Read a stored file. -/
def storeGet (s : Store) (sha : String) : Option ByteSeq :=
  (s.find? (fun kv => kv.1 = sha)).map Prod.snd

/-- `path.unlink()`: remove the (unique) file at the key. -/
def eraseKey : Store → String → Store
  | [], _ => []
  | kv :: t, k => if kv.1 = k then t else kv :: eraseKey t k

/-- `ObjectFactory.write_object`: compute the address; if the shard path
already exists return the address unchanged, otherwise store the compressed
serialization (cache bookkeeping carries no on-disk state). -/
def write_object (compress : ByteSeq → ByteSeq) (s : Store) (o : GObj) : Store × String :=
  let sha := objHash o
  if storeHas s sha then (s, sha)
  else ((sha, compress (serializeObj o)) :: s, sha)

/-- A run of `write_object` in which the file write raises after the
destination file has been created holding `halfWritten` bytes: the handler
removes the partial file when it exists and re-raises. -/
def write_object_failing (s : Store) (o : GObj) (halfWritten : ByteSeq) :
    Store × Except Unit String :=
  let sha := objHash o
  if storeHas s sha then (s, .ok sha)
  else
    let s1 := (sha, halfWritten) :: s
    let s2 := if storeHas s1 sha then eraseKey s1 sha else s1
    (s2, .error ())

/-- `ObjectFactory.read_object` from the store (cache-miss path): absent
path raises `FileNotFoundError`; otherwise decompress and parse. -/
def read_object_store (decompress : ByteSeq → Except Unit ByteSeq) (now : Int)
    (s : Store) (sha : String) : Except ReadErr GObj :=
  match storeGet s sha with
  | none => .error .notFound
  | some compressed =>
    match decompress compressed with
    | .error _ => .error .decompress
    | .ok raw => read_object_raw now sha raw

/-! ## Commit walker (`src/commands/log.py`, `CommitWalker.walk_commits`) -/

/-- The `while` guard's limit part:
`limit is None or len(commits) < limit`. -/
def limitAllows (limit : Option Nat) (emitted : Nat) : Bool :=
  match limit with
  | none => true
  | some n => emitted < n

/-- The loop of `CommitWalker.walk_commits`.  Inside the loop the source
calls `ObjectFactory.read_object(self.repo, current_sha)` — the instance
method on the class itself, binding `self` to the `Repository` and leaving
the required `sha` parameter unfilled — so the call raises `TypeError`
before touching the store, and `except Exception: continue` swallows it.
Every iteration therefore only pops the queue and records the address as
visited; nothing is ever emitted or enqueued. -/
def walk_commits_go (s : Store) (limit : Option Nat) (follow : Bool) :
    List String → List String → List GObj → List GObj
  | [], _, commits => commits
  | current :: qrest, visited, commits =>
    if limitAllows limit commits.length then
      if visited.contains current then walk_commits_go s limit follow qrest visited commits
      else walk_commits_go s limit follow qrest (current :: visited) commits
    else commits

/-- `CommitWalker.walk_commits`. -/
def walk_commits (s : Store) (start_sha : String) (limit : Option Nat) (follow : Bool) :
    List GObj :=
  walk_commits_go s limit follow [start_sha] [] []

/-- What the spec describes for `walk_commits` (and what the surrounding
code and tests clearly intend the loop body to do): read the address via the
factory instance, skip non-commits, emit the commit, and enqueue its parents
— only the first parent when `follow` is set.  Used to exhibit the
divergence of the shipped loop. -/
def walk_commits_intended_go (read_at : String → Except Unit GObj)
    (limit : Option Nat) (follow : Bool) :
    Nat → List String → List String → List GObj → List GObj
  | 0, _, _, commits => commits
  | _ + 1, [], _, commits => commits
  | fuel + 1, current :: qrest, visited, commits =>
    if limitAllows limit commits.length then
      if visited.contains current then
        walk_commits_intended_go read_at limit follow fuel qrest visited commits
      else
        let visited' := current :: visited
        match read_at current with
        | .error _ => walk_commits_intended_go read_at limit follow fuel qrest visited' commits
        | .ok obj =>
          match obj with
          | .commit c =>
            walk_commits_intended_go read_at limit follow fuel
              (qrest ++ (if follow ∧ c.parents ≠ [] then
                  (c.parents.take 1).map String.mk
                else c.parents.map String.mk))
              visited' (commits ++ [.commit c])
          | .tag c =>
            walk_commits_intended_go read_at limit follow fuel
              (qrest ++ (if follow ∧ c.parents ≠ [] then
                  (c.parents.take 1).map String.mk
                else c.parents.map String.mk))
              visited' (commits ++ [.tag c])
          | _ => walk_commits_intended_go read_at limit follow fuel qrest visited' commits
    else commits

/-! ## Concrete objects used by individual claims -/

/-- A well-formed 40-hex address used as an opaque reference. -/
def sha40a : PyStr := chars "aaaaaaaaaaaaaaaaaaaaaaaaaaaaaaaaaaaaaaaa"

/-- A second, different 40-hex address. -/
def sha40b : PyStr := chars "bbbbbbbbbbbbbbbbbbbbbbbbbbbbbbbbbbbbbbbb"

/-- A commit carrying a GPG signature (C1's failing input). -/
def exCommitGpg : CommitL :=
  { tree := sha40a, parents := [], author := chars "A <a@a.aa>",
    committer := chars "B <b@b.bb>", message := chars "m", timestamp := 5,
    timezone := chars "+0000", gpgsig := some (chars "SIG"), notes := [],
    extraHeaders := [], template := none }

/-- What `deserialize(serialize(exCommitGpg))` actually produces: the blank
separator line is swallowed when the gpgsig block ends, so the message is
never entered and is lost. -/
def exCommitGpgParsed : CommitL :=
  { tree := sha40a, parents := [], author := chars "A <a@a.aa>",
    committer := chars "B <b@b.bb>", message := [], timestamp := 5,
    timezone := chars "+0000", gpgsig := some (chars "SIG"), notes := [],
    extraHeaders := [], template := none }

/-- Tree entry named `f` with address `a…a`. -/
def exEntryFA : TreeEntryL := ⟨chars "100644", chars "f", sha40a⟩

/-- Tree entry named `f` with address `b…b`. -/
def exEntryFB : TreeEntryL := ⟨chars "100644", chars "f", sha40b⟩

/-- Tree entry `a.txt`. -/
def exEntryA : TreeEntryL := ⟨chars "100644", chars "a.txt", sha40a⟩

/-- Tree entry `b.txt`. -/
def exEntryB : TreeEntryL := ⟨chars "100644", chars "b.txt", sha40b⟩

/-- A small blob, used by the store claims. -/
def exBlobHi : GObj := .blob ⟨some (strBytes "hi")⟩

/-- A plain, well-formed commit. -/
def exCommitPlain : CommitL :=
  { tree := sha40a, parents := [], author := chars "A <a@a.aa>",
    committer := chars "B <b@b.bb>", message := chars "m", timestamp := 5,
    timezone := chars "+0000", gpgsig := none, notes := [], extraHeaders := [],
    template := none }

/-- The plain commit as a factory object. -/
def exCommitObj : GObj := .commit exCommitPlain

/-- A one-object repository read function for the intended walker. -/
def exReadOne (sha : String) : Except Unit GObj :=
  if sha = objHash exCommitObj then .ok exCommitObj else .error ()

/-- Number of stored files at an address. -/
def countKey (s : Store) (k : String) : Nat := (s.filter (fun kv => kv.1 = k)).length

/-- `'\n'` does not occur. -/
def noNl (s : PyStr) : Prop := '\n' ∉ s

/-- `' '` does not occur. -/
def noSp (s : PyStr) : Prop := ' ' ∉ s

/-- The address of `exBlobHi` as a literal. -/
def exBlobHiSha : String := "32f95c0d1244a78b2be1bab8de17906fabb2c4a8"

instance : IsTotal TreeEntryL (fun a b => a.name ≤ b.name) :=
  ⟨fun a b => le_total a.name b.name⟩

instance : IsTrans TreeEntryL (fun a b => a.name ≤ b.name) :=
  ⟨fun _ _ _ h1 h2 => le_trans h1 h2⟩

instance : IsAntisymm TreeEntryL (fun a b => a.name < b.name) :=
  ⟨fun _ _ h1 h2 => (lt_asymm h1 h2).elim⟩

/-! ## Theorems -/

/-! Auxiliary lemmas for the delta round-trip. -/

theorem be4_length (n : Nat) : (be4 n).length = 4 := rfl

theorem readBE4_be4 (n : Nat) (h : n < 2 ^ 32) : readBE4 (be4 n) = n := by
  simp only [readBE4, be4]
  omega

theorem commonPrefixLen_le_left (a b : ByteSeq) : commonPrefixLen a b ≤ a.length := by
  induction a generalizing b with
  | nil => simp [commonPrefixLen]
  | cons x xs ih =>
    cases b with
    | nil => simp [commonPrefixLen]
    | cons y ys =>
      simp only [commonPrefixLen]
      split
      · exact Nat.succ_le_succ (ih ys)
      · exact Nat.zero_le _

theorem commonPrefixLen_le_right (a b : ByteSeq) : commonPrefixLen a b ≤ b.length := by
  induction a generalizing b with
  | nil => simp [commonPrefixLen]
  | cons x xs ih =>
    cases b with
    | nil => simp [commonPrefixLen]
    | cons y ys =>
      simp only [commonPrefixLen]
      split
      · exact Nat.succ_le_succ (ih ys)
      · exact Nat.zero_le _

theorem commonPrefixLen_take (a b : ByteSeq) :
    a.take (commonPrefixLen a b) = b.take (commonPrefixLen a b) := by
  induction a generalizing b with
  | nil => simp [commonPrefixLen]
  | cons x xs ih =>
    cases b with
    | nil => simp [commonPrefixLen]
    | cons y ys =>
      simp only [commonPrefixLen]
      split
      · next hxy => simp [List.take_succ_cons, hxy, ih ys]
      · simp

theorem commonPrefixLenBounded_le_bound (a b : ByteSeq) (k : Nat) :
    commonPrefixLenBounded a b k ≤ k := by
  induction a generalizing b k with
  | nil => simp [commonPrefixLenBounded]
  | cons x xs ih =>
    cases b with
    | nil => simp [commonPrefixLenBounded]
    | cons y ys =>
      cases k with
      | zero => simp [commonPrefixLenBounded]
      | succ k =>
        simp only [commonPrefixLenBounded]
        split
        · exact Nat.succ_le_succ (ih ys k)
        · exact Nat.zero_le _

theorem commonPrefixLenBounded_take (a b : ByteSeq) (k : Nat) :
    a.take (commonPrefixLenBounded a b k) = b.take (commonPrefixLenBounded a b k) := by
  induction a generalizing b k with
  | nil => simp [commonPrefixLenBounded]
  | cons x xs ih =>
    cases b with
    | nil => simp [commonPrefixLenBounded]
    | cons y ys =>
      cases k with
      | zero => simp [commonPrefixLenBounded]
      | succ k =>
        simp only [commonPrefixLenBounded]
        split
        · next hxy => simp [List.take_succ_cons, hxy, ih ys k]
        · simp

/-- On a list of length at least `k`, dropping all but the last `k` elements
is the reverse of taking `k` of the reverse. -/
theorem drop_eq_reverse_take_reverse (l : ByteSeq) (k : Nat) (h : k ≤ l.length) :
    l.drop (l.length - k) = (l.reverse.take k).reverse := by
  have h1 : l.reverse = (l.drop (l.length - k)).reverse ++ (l.take (l.length - k)).reverse := by
    rw [← List.reverse_append, List.take_append_drop]
  have h2 : (l.drop (l.length - k)).reverse.length = k := by
    simp [List.length_drop]; omega
  rw [h1, List.take_left' h2, List.reverse_reverse]

theorem applyLoop_copy (base : ByteSeq) (off len : Nat) (rest acc : ByteSeq) :
    applyLoop base (0x01 :: (be4 off ++ be4 len ++ rest)) acc
      = applyLoop base rest (acc ++ (base.drop (readBE4 (be4 off))).take (readBE4 (be4 len))) := by
  have hassoc : be4 off ++ be4 len ++ rest = be4 off ++ (be4 len ++ rest) :=
    List.append_assoc _ _ _
  have e1 : (be4 off ++ (be4 len ++ rest)).take 4 = be4 off := List.take_left' (be4_length off)
  have e2 : (be4 off ++ (be4 len ++ rest)).drop 4 = be4 len ++ rest :=
    List.drop_left' (be4_length off)
  have e3 : (be4 len ++ rest).take 4 = be4 len := List.take_left' (be4_length len)
  have e4 : (be4 off ++ be4 len ++ rest).drop 8 = rest :=
    List.drop_left' (by simp [be4])
  have hlen8 : ¬ (be4 off ++ be4 len ++ rest).length < 8 := by simp [be4]
  rw [applyLoop]
  simp only [hassoc] at e4 hlen8 ⊢
  simp only [if_pos rfl, if_neg hlen8, e1, e2, e3, e4]
  simp

theorem applyLoop_insert (base : ByteSeq) (mid rest acc : ByteSeq) (hlen : mid.length < 2 ^ 32) :
    applyLoop base (0x02 :: (be4 mid.length ++ (mid ++ rest))) acc
      = applyLoop base rest (acc ++ mid) := by
  have e1 : (be4 mid.length ++ (mid ++ rest)).take 4 = be4 mid.length :=
    List.take_left' (be4_length _)
  have e2 : (be4 mid.length ++ (mid ++ rest)).drop 4 = mid ++ rest :=
    List.drop_left' (be4_length _)
  have hr : readBE4 (be4 mid.length) = mid.length := readBE4_be4 _ hlen
  have hlen4 : ¬ (be4 mid.length ++ (mid ++ rest)).length < 4 := by simp [be4]
  have hnotrunc : ¬ (be4 mid.length ++ (mid ++ rest)).length - 4 < mid.length := by
    simp [be4]
  have e3 : (be4 mid.length ++ (mid ++ rest)).drop (4 + mid.length) = rest := by
    have : be4 mid.length ++ (mid ++ rest) = (be4 mid.length ++ mid) ++ rest := by simp
    rw [this]
    exact List.drop_left' (by simp [be4]; omega)
  have e4 : (mid ++ rest).take mid.length = mid := List.take_left _ _
  rw [applyLoop]
  simp only [if_pos rfl, if_neg hlen4, hr, if_neg hnotrunc, e1, e2, e3, e4]
  simp

theorem applyLoop_nil (base acc : ByteSeq) : applyLoop base [] acc = .ok acc := by
  rw [applyLoop]

theorem applyLoop_copy2 (base : ByteSeq) (off len : Nat) (hoff : off < 2 ^ 32)
    (hlen : len < 2 ^ 32) (rest acc : ByteSeq) :
    applyLoop base (0x01 :: (be4 off ++ (be4 len ++ rest))) acc
      = applyLoop base rest (acc ++ (base.drop off).take len) := by
  rw [← List.append_assoc, applyLoop_copy, readBE4_be4 _ hoff, readBE4_be4 _ hlen]

theorem applyLoop_copy_last (base : ByteSeq) (off len : Nat) (acc : ByteSeq)
    (hoff : off < 2 ^ 32) (hlen : len < 2 ^ 32) :
    applyLoop base (0x01 :: (be4 off ++ be4 len)) acc
      = .ok (acc ++ (base.drop off).take len) := by
  have h : (0x01 : Nat) :: (be4 off ++ be4 len) = 0x01 :: (be4 off ++ (be4 len ++ [])) := by simp
  rw [h, applyLoop_copy2 _ _ _ hoff hlen, applyLoop_nil]

theorem applyLoop_insert_last (base mid acc : ByteSeq) (hlen : mid.length < 2 ^ 32) :
    applyLoop base (0x02 :: (be4 mid.length ++ mid)) acc = .ok (acc ++ mid) := by
  have h : (0x02 : Nat) :: (be4 mid.length ++ mid)
      = 0x02 :: (be4 mid.length ++ (mid ++ [])) := by simp
  rw [h, applyLoop_insert _ _ _ _ hlen, applyLoop_nil]

/-- Delta round-trip, general form: applying the delta created from
`base_data` to `target_data` reconstructs `target_data` exactly.  The length
bounds reflect that `struct.pack('>I', ...)` only represents 32-bit sizes. -/
theorem delta_roundtrip_aux (base_data target_data : ByteSeq)
    (hb : base_data.length < 2 ^ 32) (ht : target_data.length < 2 ^ 32) :
    apply_delta base_data (create_delta base_data target_data) = .ok target_data := by
  by_cases heq : base_data = target_data
  · subst heq
    simp [create_delta, apply_delta]
  · have hLb : base_data.length < 2 ^ 32 := hb
    set Lb := base_data.length with hLbdef
    set Lt := target_data.length with hLtdef
    set p := commonPrefixLen base_data target_data with hpdef
    set s := commonPrefixLenBounded base_data.reverse target_data.reverse
      (min (Lb - p) (Lt - p)) with hsdef
    have hpb : p ≤ Lb := commonPrefixLen_le_left _ _
    have hpt : p ≤ Lt := commonPrefixLen_le_right _ _
    have hsmin : s ≤ min (Lb - p) (Lt - p) := commonPrefixLenBounded_le_bound _ _ _
    have hsb : s ≤ Lb - p := le_trans hsmin (min_le_left _ _)
    have hst : s ≤ Lt - p := le_trans hsmin (min_le_right _ _)
    have htake : base_data.take p = target_data.take p := commonPrefixLen_take _ _
    have hrevtake : base_data.reverse.take s = target_data.reverse.take s :=
      commonPrefixLenBounded_take _ _ _
    have hdropb : base_data.drop (Lb - s) = target_data.drop (Lt - s) := by
      rw [drop_eq_reverse_take_reverse base_data s (by omega),
        drop_eq_reverse_take_reverse target_data s (by omega), hrevtake]
    set middle := (if s > 0 then
        (target_data.drop p).take (Lt - s - p)
      else target_data.drop p) with hmid
    have hmidlen : middle.length ≤ Lt := by
      rw [hmid]
      split
      · have h1 := List.length_take_le (Lt - s - p) (target_data.drop p)
        omega
      · have h1 := List.length_drop p target_data
        omega
    -- the constructed delta
    have hcd : create_delta base_data target_data
        = be4 Lb ++ be4 Lt
          ++ ((if p > 0 then 0x01 :: (be4 0 ++ be4 p) else [])
          ++ ((if middle ≠ [] then 0x02 :: be4 middle.length ++ middle else [])
          ++ (if s > 0 then 0x01 :: (be4 (Lb - s) ++ be4 s) else []))) := by
      rw [create_delta, if_neg heq]
      simp only [← hpdef, ← hsdef, ← hmid, ← hLbdef, ← hLtdef, List.append_assoc]
    -- run the instruction loop
    have hloop : applyLoop base_data
        ((if p > 0 then 0x01 :: (be4 0 ++ be4 p) else [])
          ++ ((if middle ≠ [] then 0x02 :: be4 middle.length ++ middle else [])
          ++ (if s > 0 then 0x01 :: (be4 (Lb - s) ++ be4 s) else []))) []
        = .ok (base_data.take p ++ (middle ++ (base_data.drop (Lb - s)).take s)) := by
      by_cases hp0 : p > 0
      · by_cases hm0 : middle = []
        · by_cases hs0 : s > 0
          · rw [if_pos hp0, if_neg (not_not_intro hm0), if_pos hs0]
            simp only [List.nil_append, List.cons_append, List.append_assoc]
            rw [applyLoop_copy2 _ _ _ (by norm_num) (by omega),
              applyLoop_copy_last _ _ _ _ (by omega) (by omega)]
            simp [hm0]
          · rw [if_pos hp0, if_neg (not_not_intro hm0), if_neg hs0]
            have hs0' : s = 0 := by omega
            simp only [List.nil_append, List.append_nil]
            rw [applyLoop_copy_last _ _ _ _ (by norm_num) (by omega)]
            simp [hm0, hs0']
        · by_cases hs0 : s > 0
          · rw [if_pos hp0, if_pos hm0, if_pos hs0]
            simp only [List.nil_append, List.cons_append, List.append_assoc]
            rw [applyLoop_copy2 _ _ _ (by norm_num) (by omega),
              applyLoop_insert _ _ _ _ (by omega),
              applyLoop_copy_last _ _ _ _ (by omega) (by omega)]
            simp
          · rw [if_pos hp0, if_pos hm0, if_neg hs0]
            have hs0' : s = 0 := by omega
            simp only [List.nil_append, List.cons_append, List.append_assoc, List.append_nil]
            rw [applyLoop_copy2 _ _ _ (by norm_num) (by omega),
              applyLoop_insert_last base_data middle _ (by omega)]
            simp [hs0']
      · have hp0' : p = 0 := by omega
        by_cases hm0 : middle = []
        · by_cases hs0 : s > 0
          · rw [if_neg hp0, if_neg (not_not_intro hm0), if_pos hs0]
            simp only [List.nil_append]
            rw [applyLoop_copy_last _ _ _ _ (by omega) (by omega)]
            simp [hm0, hp0']
          · rw [if_neg hp0, if_neg (not_not_intro hm0), if_neg hs0]
            have hs0' : s = 0 := by omega
            simp only [List.nil_append, List.append_nil]
            rw [applyLoop_nil]
            simp [hm0, hp0', hs0']
        · by_cases hs0 : s > 0
          · rw [if_neg hp0, if_pos hm0, if_pos hs0]
            simp only [List.nil_append, List.cons_append, List.append_assoc]
            rw [applyLoop_insert _ _ _ _ (by omega),
              applyLoop_copy_last _ _ _ _ (by omega) (by omega)]
            simp [hp0']
          · rw [if_neg hp0, if_pos hm0, if_neg hs0]
            have hs0' : s = 0 := by omega
            simp only [List.nil_append, List.append_nil, List.cons_append, List.append_assoc]
            rw [applyLoop_insert_last base_data middle [] (by omega)]
            simp [hp0', hs0']
    -- the reconstructed bytes are the target
    have hresult : base_data.take p ++ (middle ++ (base_data.drop (Lb - s)).take s)
        = target_data := by
      have hall : (base_data.drop (Lb - s)).take s = base_data.drop (Lb - s) :=
        List.take_of_length_le (by simp [← hLbdef]; omega)
      rw [hall, hdropb, htake, hmid]
      by_cases hs0 : s > 0
      · rw [if_pos hs0]
        have h1 : (target_data.drop p).take (Lt - s - p) ++ target_data.drop (Lt - s)
            = target_data.drop p := by
          have h2 : target_data.drop (Lt - s) = (target_data.drop p).drop (Lt - s - p) := by
            rw [List.drop_drop]
            congr 1
            omega
          rw [h2, List.take_append_drop]
        rw [← List.append_assoc] at *
        rw [List.append_assoc, h1, List.take_append_drop]
      · rw [if_neg hs0]
        have hs0' : s = 0 := by omega
        rw [hs0']
        have hdLt : target_data.drop (Lt - 0) = [] := by
          have he : Lt - 0 = target_data.length := by omega
          rw [he, List.drop_length]
        rw [hdLt, List.append_nil, List.take_append_drop]
    -- assemble apply_delta
    have hne : create_delta base_data target_data ≠ sameBytes := by
      intro hx
      have hlen8 := congrArg List.length hx
      rw [hcd] at hlen8
      simp [be4, sameBytes, strBytes, chars, utf8OfChars, utf8Char] at hlen8
    have hdl : ¬ (create_delta base_data target_data).length < 8 := by
      rw [hcd]
      simp [be4]
    have e1 : (create_delta base_data target_data).take 4 = be4 Lb := by
      rw [hcd, List.append_assoc, List.take_left' (be4_length _)]
    have e2 : ((create_delta base_data target_data).drop 4).take 4 = be4 Lt := by
      rw [hcd, List.append_assoc, List.drop_left' (be4_length _),
        List.take_left' (be4_length _)]
    have e3 : (create_delta base_data target_data).drop 8
        = (if p > 0 then 0x01 :: (be4 0 ++ be4 p) else [])
          ++ ((if middle ≠ [] then 0x02 :: be4 middle.length ++ middle else [])
          ++ (if s > 0 then 0x01 :: (be4 (Lb - s) ++ be4 s) else [])) := by
      rw [hcd]
      exact List.drop_left' (by simp [be4])
    rw [apply_delta, if_neg hne, if_neg hdl, e1, readBE4_be4 _ hLb,
      if_neg (by omega), e3, hloop, hresult]
    simp [e2, readBE4_be4 _ ht]

/-! ## Claim theorems -/

/-- C1: the round-trip `deserialize(serialize(o))` is claimed to reproduce
`serialize` bytes and address for every object.  It fails for commits that
carry a GPG signature: when the signature block ends, `Commit.deserialize`
drops the line that follows it (here the blank separator), so the message is
lost and the re-serialized bytes differ — hence so does the address. -/
theorem c1_commit_roundtrip_fails_on_gpgsig :
    commit_deserialize 0 (commit_serialize exCommitGpg) = .ok exCommitGpgParsed ∧
    exCommitGpgParsed.message = [] ∧ exCommitGpg.message = chars "m" ∧
    commit_serialize exCommitGpgParsed ≠ commit_serialize exCommitGpg := by
  exact ⟨by decide, by decide, by decide, by decide⟩

/-- C3: for arbitrary byte strings (of `struct.pack`-representable length,
i.e. below 2^32), applying the delta created from base and target to the
base reconstructs the target exactly — including `base = target` and fully
disjoint strings. -/
theorem c3_delta_roundtrip (base_data target_data : ByteSeq)
    (hb : base_data.length < 2 ^ 32) (ht : target_data.length < 2 ^ 32) :
    apply_delta base_data (create_delta base_data target_data) = .ok target_data :=
  delta_roundtrip_aux base_data target_data hb ht

theorem c3_delta_roundtrip_witness :
    (strBytes "hello").length < 2 ^ 32 ∧ (strBytes "world!").length < 2 ^ 32 ∧
    apply_delta (strBytes "hello") (create_delta (strBytes "hello") (strBytes "world!"))
      = .ok (strBytes "world!") :=
  ⟨by decide, by decide, c3_delta_roundtrip _ _ (by decide) (by decide)⟩

/-- C4: `Tree.merge` resolves a name collision the opposite way from its
claim: with strategy `ours` the second dict (`other`, i.e. b) overwrites via
`dict.update`, so b's entry survives; with `theirs` a's entry survives.  The
union clauses behave as claimed: differing addresses on a shared name raise,
identical addresses merge. -/
theorem c4_merge_ours_theirs_swapped :
    tree_merge [exEntryFA] [exEntryFB] "ours" = .ok [exEntryFB] ∧
    tree_merge [exEntryFA] [exEntryFB] "theirs" = .ok [exEntryFA] ∧
    tree_merge [exEntryFA] [exEntryFB] "union" = .error () ∧
    tree_merge [exEntryFA] [exEntryFA] "union" = .ok [exEntryFA] := by
  exact ⟨by decide, by decide, by decide, by decide⟩

/-- C7: the walker is claimed to emit each reachable commit once in
breadth-first order.  As shipped, the loop's read call invokes the factory's
instance method on the class itself, which raises `TypeError` and is
swallowed by the bare `except`, so `walk_commits` returns the empty list on
every store and start address; the intended loop (second conjunct) would
emit the stored commit. -/
theorem c7_walk_commits_emits_nothing :
    (∀ (s : Store) (start_sha : String) (limit : Option Nat) (follow : Bool),
      walk_commits s start_sha limit follow = []) ∧
    walk_commits_intended_go exReadOne none false 2 [objHash exCommitObj] [] []
      = [exCommitObj] := by
  constructor
  · intro s start_sha limit follow
    have hgo : ∀ (q v : List String), walk_commits_go s limit follow q v [] = [] := by
      intro q
      induction q with
      | nil => intro v; rfl
      | cons a t ih =>
        intro v
        unfold walk_commits_go
        split
        · split
          · exact ih v
          · exact ih (a :: v)
        · rfl
    exact hgo _ _
  · decide

/-- C8 counterexample: the digest the claim gives for the blob `"hello"` is
not its address (it is 39 hex characters — a truncation of the digest of the
6-byte blob `"hello\n"`). -/
theorem c8_blob_hello_digest_wrong :
    sha1Hex (blob_serialize ⟨some (strBytes "hello")⟩)
      ≠ "ce013625030ba8dba906f756967f9e9ca394464" := by decide

/-- C8 amended: the blob `"hello"` encodes as `"blob 5\0hello"` and its
SHA-1 address is `b6fc4c620b67d95f953a5c1c1230aaab5db5a1b0`; the empty tree
encodes as `"tree 0\0"` with address
`4b825dc642cb6eb9a060e54bf8d69288fbee4904` as claimed. -/
theorem c8_concrete_vectors :
    blob_serialize ⟨some (strBytes "hello")⟩ = strBytes "blob 5" ++ [0] ++ strBytes "hello" ∧
    sha1Hex (blob_serialize ⟨some (strBytes "hello")⟩)
      = "b6fc4c620b67d95f953a5c1c1230aaab5db5a1b0" ∧
    tree_serialize [] = strBytes "tree 0" ++ [0] ∧
    sha1Hex (tree_serialize []) = "4b825dc642cb6eb9a060e54bf8d69288fbee4904" := by
  exact ⟨by decide, by decide, by decide, by decide⟩

theorem storeHas_false_countKey (s : Store) (k : String) (h : storeHas s k = false) :
    countKey s k = 0 := by
  induction s with
  | nil => rfl
  | cons kv t ih =>
    simp only [storeHas, List.any_cons, Bool.or_eq_false_iff, decide_eq_false_iff_not] at h
    simp only [countKey, List.filter_cons, decide_eq_true_eq]
    rw [if_neg h.1]
    exact ih (by simp [storeHas, h.2])

theorem storeHas_false_storeGet (s : Store) (k : String) (h : storeHas s k = false) :
    storeGet s k = none := by
  induction s with
  | nil => rfl
  | cons kv t ih =>
    simp only [storeHas, List.any_cons, Bool.or_eq_false_iff, decide_eq_false_iff_not] at h
    simp only [storeGet, List.find?]
    rw [decide_eq_false h.1]
    exact ih (by simp [storeHas, h.2])

/-- C5: writing the same object twice returns the same address both times,
the second write leaves the store unchanged (an existing content-addressed
path is success, not an error, and is not rewritten), and a fresh first
write results in exactly one stored file at that address. -/
theorem c5_write_idempotent (compress : ByteSeq → ByteSeq) (s : Store) (o : GObj) :
    (write_object compress (write_object compress s o).1 o).2
        = (write_object compress s o).2
    ∧ (write_object compress (write_object compress s o).1 o).1
        = (write_object compress s o).1
    ∧ (storeHas s (objHash o) = true → (write_object compress s o).1 = s)
    ∧ (storeHas s (objHash o) = false →
        countKey (write_object compress s o).1 (objHash o) = 1
        ∧ countKey (write_object compress (write_object compress s o).1 o).1 (objHash o) = 1) := by
  by_cases h : storeHas s (objHash o) = true
  · simp [write_object, h]
  · have h' : storeHas s (objHash o) = false := by
      cases hx : storeHas s (objHash o)
      · rfl
      · exact absurd hx h
    have hC0 : countKey s (objHash o) = 0 := storeHas_false_countKey s _ h'
    have h1 : storeHas ((objHash o, compress (serializeObj o)) :: s) (objHash o) = true := by
      simp [storeHas]
    have hck : countKey ((objHash o, compress (serializeObj o)) :: s) (objHash o) = 1 := by
      have hC0' : (s.filter (fun kv => kv.1 = objHash o)).length = 0 := hC0
      show (((objHash o, compress (serializeObj o)) :: s).filter
        (fun kv => kv.1 = objHash o)).length = 1
      rw [List.filter_cons_of_pos (by simp)]
      simp [hC0']
    refine ⟨?_, ?_, ?_, ?_⟩
    · simp [write_object, h', h1]
    · simp [write_object, h', h1]
    · intro hc
      rw [hc] at h'
      cases h'
    · intro _
      refine ⟨?_, ?_⟩
      · simpa [write_object, h', h1] using hck
      · simpa [write_object, h', h1] using hck

theorem c5_write_idempotent_witness :
    storeHas [] (objHash exBlobHi) = false ∧
    countKey (write_object id [] exBlobHi).1 (objHash exBlobHi) = 1 := by
  refine ⟨by decide, ((c5_write_idempotent id [] exBlobHi).2.2.2 (by decide)).1⟩

/-- C10: when the file write fails after the destination file was created,
`write_object` removes the partial file before re-raising, so the store is
exactly as before the call, and reading that address afterwards fails with
not-found rather than returning truncated data. -/
theorem c10_failed_write_leaves_no_file (s : Store) (o : GObj) (halfWritten : ByteSeq)
    (h : storeHas s (objHash o) = false) :
    write_object_failing s o halfWritten = (s, .error ()) ∧
    ∀ (decompress : ByteSeq → Except Unit ByteSeq) (now : Int),
      read_object_store decompress now s (objHash o) = .error .notFound := by
  constructor
  · have h1 : storeHas ((objHash o, halfWritten) :: s) (objHash o) = true := by
      simp [storeHas]
    have h2 : eraseKey ((objHash o, halfWritten) :: s) (objHash o) = s := by
      simp [eraseKey]
    simp [write_object_failing, h, h1, h2]
  · intro decompress now
    simp [read_object_store, storeHas_false_storeGet s (objHash o) h]

theorem c10_failed_write_leaves_no_file_witness :
    storeHas [] (objHash exBlobHi) = false ∧
    write_object_failing [] exBlobHi [1, 2, 3] = ([], .error ()) := by
  refine ⟨by decide, (c10_failed_write_leaves_no_file [] exBlobHi [1, 2, 3] (by decide)).1⟩

/-- C2: whenever `read_object` succeeds, the address it recomputed from the
freshly parsed bytes equals the requested address; consequently stored bytes
whose parsed content hashes differently — e.g. a corrupted object that still
decompresses and parses — are rejected with an error rather than returned as
valid.  (DEFLATE itself is an external library; corruption that breaks the
compressed stream is already rejected by its checksum before this code
runs.) -/
theorem c2_read_recomputes_address (now : Int) (sha : String) (raw : ByteSeq) (obj : GObj)
    (h : read_object_raw now sha raw = .ok obj) : objHash obj = sha := by
  unfold read_object_raw at h
  split at h
  · cases h
  · split at h
    · cases h
    · split at h
      · cases h
      · split at h
        · cases h
        · split at h
          · cases h
          · split at h
            · cases h
            · split at h
              · next hcond =>
                injection h with h2
                rw [← h2]
                exact hcond
              · cases h

theorem c2_read_recomputes_address_witness :
    read_object_raw 0 exBlobHiSha (serializeObj exBlobHi) = .ok exBlobHi ∧
    objHash exBlobHi = exBlobHiSha :=
  ⟨by decide, c2_read_recomputes_address 0 exBlobHiSha (serializeObj exBlobHi) exBlobHi
    (by decide)⟩

theorem insertionSort_eq_of_perm (l1 l2 : List TreeEntryL) (hperm : l1.Perm l2)
    (hnodup : (l1.map TreeEntryL.name).Nodup) :
    l1.insertionSort (fun a b => a.name ≤ b.name)
      = l2.insertionSort (fun a b => a.name ≤ b.name) := by
  have hp1 := List.perm_insertionSort (fun a b : TreeEntryL => a.name ≤ b.name) l1
  have hp2 := List.perm_insertionSort (fun a b : TreeEntryL => a.name ≤ b.name) l2
  have hs1 := List.sorted_insertionSort (fun a b : TreeEntryL => a.name ≤ b.name) l1
  have hs2 := List.sorted_insertionSort (fun a b : TreeEntryL => a.name ≤ b.name) l2
  have hne1 : l1.Pairwise (fun a b => a.name ≠ b.name) := List.pairwise_map.mp hnodup
  have hnodup2 : (l2.map TreeEntryL.name).Nodup := ((hperm.map TreeEntryL.name).nodup_iff).mp hnodup
  have hne2 : l2.Pairwise (fun a b => a.name ≠ b.name) := List.pairwise_map.mp hnodup2
  have hne1' := (hp1.pairwise_iff (fun h => Ne.symm h)).mpr hne1
  have hne2' := (hp2.pairwise_iff (fun h => Ne.symm h)).mpr hne2
  have hstrict1 : (l1.insertionSort (fun a b => a.name ≤ b.name)).Pairwise
      (fun a b => a.name < b.name) :=
    (hs1.and hne1').imp (fun h => lt_of_le_of_ne h.1 h.2)
  have hstrict2 : (l2.insertionSort (fun a b => a.name ≤ b.name)).Pairwise
      (fun a b => a.name < b.name) :=
    (hs2.and hne2').imp (fun h => lt_of_le_of_ne h.1 h.2)
  exact List.eq_of_perm_of_sorted (hp1.trans (hperm.trans hp2.symm)) hstrict1 hstrict2

/-- C6: trees holding the same entries serialize and hash identically
regardless of insertion order (names are unique within a tree), and the
concrete tree built as `[b.txt, a.txt]` serializes with `a.txt` first. -/
theorem c6_tree_order_independent :
    (∀ (l1 l2 : List TreeEntryL), l1.Perm l2 → (l1.map TreeEntryL.name).Nodup →
      tree_serialize l1 = tree_serialize l2
        ∧ sha1Hex (tree_serialize l1) = sha1Hex (tree_serialize l2)) ∧
    tree_serialize [exEntryB, exEntryA]
      = strBytes "tree 66" ++ [0] ++ (treeEntry_serialize exEntryA ++ treeEntry_serialize exEntryB) := by
  constructor
  · intro l1 l2 hperm hnodup
    have hs := insertionSort_eq_of_perm l1 l2 hperm hnodup
    constructor
    · unfold tree_serialize
      rw [hs]
    · unfold tree_serialize
      rw [hs]
  · decide

theorem c6_tree_order_independent_witness :
    [exEntryB, exEntryA].Perm [exEntryA, exEntryB] ∧
    ([exEntryB, exEntryA].map TreeEntryL.name).Nodup ∧
    tree_serialize [exEntryB, exEntryA] = tree_serialize [exEntryA, exEntryB] :=
  ⟨List.Perm.swap _ _ _, by decide,
    ((c6_tree_order_independent.1) [exEntryB, exEntryA] [exEntryA, exEntryB]
      (List.Perm.swap _ _ _) (by decide)).1⟩

/-! Decimal rendering and parsing lemmas (for the person-info round trip). -/

theorem digit_char_spec (r : Nat) (h : r < 10) :
    (Char.ofNat (48 + r)).isDigit = true ∧ (Char.ofNat (48 + r)).toNat = 48 + r := by
  interval_cases r <;> exact ⟨by decide, by decide⟩

theorem digitsValGo_append (acc : Nat) (l1 l2 : PyStr) :
    digitsValGo acc (l1 ++ l2)
      = match digitsValGo acc l1 with
        | none => none
        | some a => digitsValGo a l2 := by
  induction l1 generalizing acc with
  | nil => rfl
  | cons c rest ih =>
    simp only [List.cons_append, digitsValGo]
    split
    · exact ih _
    · rfl

theorem natCharsGo_mem_digit (fuel n : Nat) :
    ∀ c ∈ natCharsGo fuel n, c.isDigit = true := by
  induction fuel generalizing n with
  | zero => intro c hc; cases hc
  | succ fuel ih =>
    intro c hc
    unfold natCharsGo at hc
    split at hc
    · cases hc
    · rcases List.mem_append.mp hc with h1 | h2
      · exact ih _ c h1
      · rcases List.mem_singleton.mp h2 with rfl
        exact (digit_char_spec (n % 10) (Nat.mod_lt _ (by norm_num))).1

theorem natCharsGo_parse (fuel : Nat) : ∀ (n acc : Nat), n ≤ fuel →
    digitsValGo acc (natCharsGo fuel n)
      = some (acc * 10 ^ (natCharsGo fuel n).length + n) := by
  induction fuel with
  | zero =>
    intro n acc hn
    have : n = 0 := Nat.le_zero.mp hn
    subst this
    simp [natCharsGo, digitsValGo]
  | succ fuel ih =>
    intro n acc hn
    unfold natCharsGo
    split
    · next h0 => subst h0; simp [digitsValGo]
    · next h0 =>
      have hd := digit_char_spec (n % 10) (Nat.mod_lt _ (by norm_num))
      have hrec : n / 10 ≤ fuel := by omega
      rw [digitsValGo_append, ih (n / 10) acc hrec]
      simp only [digitsValGo, hd.1, if_pos, hd.2, List.length_append, List.length_cons,
        List.length_nil]
      congr 1
      have hmod := Nat.div_add_mod n 10
      ring_nf
      omega

theorem natChars_ne_nil (n : Nat) : natChars n ≠ [] := by
  unfold natChars
  split
  · decide
  · next h0 =>
    cases n with
    | zero => exact absurd rfl h0
    | succ m =>
      unfold natCharsGo
      rw [if_neg h0]
      simp

theorem natChars_mem_digit (n : Nat) : ∀ c ∈ natChars n, c.isDigit = true := by
  unfold natChars
  split
  · intro c hc
    rcases List.mem_singleton.mp hc with rfl
    decide
  · exact natCharsGo_mem_digit n n

theorem intChars_mem (i : Int) : ∀ c ∈ intChars i, c.isDigit = true ∨ c = '-' := by
  unfold intChars
  split
  · intro c hc
    rcases List.mem_cons.mp hc with rfl | hm
    · exact Or.inr rfl
    · exact Or.inl (natChars_mem_digit _ c hm)
  · intro c hc
    exact Or.inl (natChars_mem_digit _ c hc)

theorem intChars_no_sp (i : Int) : noSp (intChars i) := by
  intro hmem
  rcases intChars_mem i ' ' hmem with h | h
  · exact absurd h (by decide)
  · exact absurd h (by decide)

theorem intChars_no_nl (i : Int) : noNl (intChars i) := by
  intro hmem
  rcases intChars_mem i '\x0a' hmem with h | h
  · exact absurd h (by decide)
  · exact absurd h (by decide)

theorem pyInt_natChars (n : Nat) : pyInt (natChars n) = some (n : Int) := by
  by_cases h0 : n = 0
  · subst h0
    decide
  · have hne := natChars_ne_nil n
    have hparse : digitsValGo 0 (natChars n) = some n := by
      unfold natChars
      rw [if_neg h0, natCharsGo_parse n n 0 le_rfl]
      simp
    have hdig : ∀ c ∈ natChars n, c.isDigit = true := natChars_mem_digit n
    obtain ⟨c, rest, hcons⟩ := List.exists_cons_of_ne_nil hne
    have hcd : c.isDigit = true := hdig c (hcons ▸ List.mem_cons_self c rest)
    have hc1 : c ≠ '-' := by
      intro h
      rw [h] at hcd
      exact absurd hcd (by decide)
    have hc2 : c ≠ '+' := by
      intro h
      rw [h] at hcd
      exact absurd hcd (by decide)
    rw [hcons] at hparse ⊢
    simp only [pyInt]
    rw [if_neg hc1, if_neg hc2, hparse]
    rfl

theorem pyInt_intChars (i : Int) : pyInt (intChars i) = some i := by
  unfold intChars
  split
  · next hneg =>
    have ha : i.natAbs ≠ 0 := by omega
    have hne := natChars_ne_nil i.natAbs
    have hparse : digitsValGo 0 (natChars i.natAbs) = some i.natAbs := by
      unfold natChars
      rw [if_neg ha, natCharsGo_parse _ _ 0 le_rfl]
      simp
    simp only [pyInt]
    rw [if_pos trivial, if_neg hne, hparse]
    have hval : -((i.natAbs : Int)) = i := by omega
    simp [hval]
    rw [abs_of_neg hneg, neg_neg]
  · next hpos =>
    rw [pyInt_natChars]
    congr 1
    omega

/-! Split / join lemmas for line-structured text. -/

theorem intercalate_cons_of_ne_nil (x : Char) (l : PyStr) (ls : List PyStr) (h : ls ≠ []) :
    List.intercalate [x] (l :: ls) = l ++ x :: List.intercalate [x] ls := by
  rcases ls with _ | ⟨m, ms⟩
  · exact absurd rfl h
  · simp [List.intercalate, List.intersperse_cons_cons, List.flatten]

theorem splitOnChar_ne_nil (sep : Char) (s : PyStr) : splitOnChar sep s ≠ [] :=
  List.splitOnP_ne_nil _ s

theorem splitOnChar_no_sep (sep : Char) (l : PyStr) (h : sep ∉ l) :
    splitOnChar sep l = [l] := by
  unfold splitOnChar List.splitOn
  refine List.splitOnP_eq_single _ _ ?_
  intro y hy hbeq
  rw [beq_iff_eq] at hbeq
  exact h (hbeq ▸ hy)

theorem splitOnChar_first (sep : Char) (l rest : PyStr) (h : sep ∉ l) :
    splitOnChar sep (l ++ sep :: rest) = l :: splitOnChar sep rest := by
  unfold splitOnChar List.splitOn
  refine List.splitOnP_first _ _ ?_ sep (by simp) rest
  intro y hy hbeq
  rw [beq_iff_eq] at hbeq
  exact h (hbeq ▸ hy)

theorem splitOnChar_append_sep (sep : Char) (x y : PyStr) :
    splitOnChar sep (x ++ sep :: y) = splitOnChar sep x ++ splitOnChar sep y := by
  unfold splitOnChar List.splitOn
  induction x with
  | nil => simp [List.splitOnP_cons]
  | cons c xs ih =>
    simp only [List.cons_append, List.splitOnP_cons]
    split
    · simp [ih]
    · rw [ih]
      have hne := List.splitOnP_ne_nil (fun a => a == sep) xs
      rcases hx : List.splitOnP (fun a => a == sep) xs with _ | ⟨a, as⟩
      · exact absurd hx hne
      · simp [List.modifyHead]

theorem intercalate_splitOnChar (sep : Char) (s : PyStr) :
    List.intercalate [sep] (splitOnChar sep s) = s := by
  unfold splitOnChar
  exact List.intercalate_splitOn s sep

theorem getD_append_self_length (A : List PyStr) (u : PyStr) (rest : List PyStr) :
    (A ++ u :: rest).getD A.length [] = u := by
  induction A with
  | nil => rfl
  | cons a as ih => simpa using ih

theorem dropLast_append_two (A : List PyStr) (u v : PyStr) :
    (A ++ [u, v]).dropLast.dropLast = A := by
  have h1 : A ++ [u, v] = (A ++ [u]) ++ [v] := by simp
  rw [h1, List.dropLast_concat, List.dropLast_concat]

theorem rsplitSpace2_round (p tz : PyStr) (ts : Int) (htz : noSp tz) :
    rsplitSpace2 (p ++ ' ' :: (intChars ts ++ ' ' :: tz)) = [p, intChars ts, tz] := by
  have hsplit : splitOnChar ' ' (p ++ ' ' :: (intChars ts ++ ' ' :: tz))
      = splitOnChar ' ' p ++ [intChars ts, tz] := by
    rw [splitOnChar_append_sep, splitOnChar_append_sep,
      splitOnChar_no_sep ' ' (intChars ts) (intChars_no_sp ts),
      splitOnChar_no_sep ' ' tz htz]
    rfl
  have hAne := splitOnChar_ne_nil ' ' p
  have hAlen : 1 ≤ (splitOnChar ' ' p).length := by
    rcases hx : splitOnChar ' ' p with _ | ⟨a, as⟩
    · exact absurd hx hAne
    · simp
  have hlen : (splitOnChar ' ' p ++ [intChars ts, tz]).length
      = (splitOnChar ' ' p).length + 2 := by simp
  unfold rsplitSpace2
  rw [hsplit, if_pos (by omega)]
  have hg1 : (splitOnChar ' ' p ++ [intChars ts, tz]).getD
      ((splitOnChar ' ' p ++ [intChars ts, tz]).length - 2) [] = intChars ts := by
    rw [hlen]
    have he : (splitOnChar ' ' p).length + 2 - 2 = (splitOnChar ' ' p).length := by omega
    rw [he]
    exact getD_append_self_length _ _ _
  have hg2 : (splitOnChar ' ' p ++ [intChars ts, tz]).getD
      ((splitOnChar ' ' p ++ [intChars ts, tz]).length - 1) [] = tz := by
    have h1 : splitOnChar ' ' p ++ [intChars ts, tz]
        = (splitOnChar ' ' p ++ [intChars ts]) ++ tz :: [] := by simp
    rw [hlen]
    have he : (splitOnChar ' ' p).length + 2 - 1
        = (splitOnChar ' ' p ++ [intChars ts]).length := by simp
    rw [he, h1]
    exact getD_append_self_length _ _ _
  rw [dropLast_append_two, hg1, hg2, intercalate_splitOnChar]

/-- `_parse_person_info` on a well-formed `"<person> <ts> <tz>"` string
recovers the three components (the person part may itself contain spaces;
the timezone must not, or `rsplit` would cut elsewhere). -/
theorem parse_person_info_round (p tz : PyStr) (ts : Int) (htz : noSp tz) :
    parse_person_info (p ++ [' '] ++ intChars ts ++ [' '] ++ tz) = .ok (p, ts, tz) := by
  have hinfo : p ++ [' '] ++ intChars ts ++ [' '] ++ tz
      = p ++ ' ' :: (intChars ts ++ ' ' :: tz) := by simp
  unfold parse_person_info
  rw [hinfo, rsplitSpace2_round p tz ts htz]
  rw [if_neg (by simp)]
  simp only [List.getD, List.get?_cons_zero, List.get?_cons_succ, Option.getD_some]
  rw [pyInt_intChars ts]

/-! Symbolic evaluation of the commit parser on serializer-shaped lines. -/

theorem exceptBind_ok {ε α β : Type} (a : α) (f : α → Except ε β) :
    ((.ok a : Except ε α) >>= f) = f a := rfl

theorem noNl_append (a b : PyStr) (ha : noNl a) (hb : noNl b) : noNl (a ++ b) := by
  intro hmem
  rcases List.mem_append.mp hmem with h | h
  · exact ha h
  · exact hb h

theorem step_tree (st : CParse) (hg : st.inGpgsig = false) (hm : st.inMessage = false)
    (t : PyStr) : commit_step st (chars "tree " ++ t) = .ok { st with tree := t } := by
  unfold commit_step
  rw [hg, hm]
  simp only [Bool.false_eq_true, if_false]
  rw [if_pos (List.isPrefixOf_iff_prefix.mpr (List.prefix_append _ _))]
  rfl

theorem step_parent (st : CParse) (hg : st.inGpgsig = false) (hm : st.inMessage = false)
    (p : PyStr) : commit_step st (chars "parent " ++ p)
      = .ok { st with parents := st.parents ++ [p] } := by
  unfold commit_step
  rw [hg, hm]
  simp only [Bool.false_eq_true, if_false,
    show List.isPrefixOf (chars "tree ") (chars "parent " ++ p) = false from rfl]
  rw [if_pos (List.isPrefixOf_iff_prefix.mpr (List.prefix_append _ _))]
  rfl

theorem step_author (st : CParse) (hg : st.inGpgsig = false) (hm : st.inMessage = false)
    (a tz : PyStr) (ts : Int) (htz : noSp tz) :
    commit_step st (chars "author " ++ person_info a ts tz)
      = .ok { st with author := a, timestamp := ts, timezone := tz } := by
  unfold commit_step
  rw [hg, hm]
  simp only [Bool.false_eq_true, if_false,
    show List.isPrefixOf (chars "tree ") (chars "author " ++ person_info a ts tz)
      = false from rfl,
    show List.isPrefixOf (chars "parent ") (chars "author " ++ person_info a ts tz)
      = false from rfl]
  rw [if_pos (List.isPrefixOf_iff_prefix.mpr (List.prefix_append _ _))]
  have hdrop : (chars "author " ++ person_info a ts tz).drop 7 = person_info a ts tz := rfl
  rw [hdrop]
  unfold person_info
  rw [parse_person_info_round a tz ts htz]

theorem step_committer (st : CParse) (hg : st.inGpgsig = false) (hm : st.inMessage = false)
    (cm tz : PyStr) (ts : Int) (htz : noSp tz) :
    commit_step st (chars "committer " ++ person_info cm ts tz)
      = .ok { st with committer := cm } := by
  unfold commit_step
  rw [hg, hm]
  simp only [Bool.false_eq_true, if_false,
    show List.isPrefixOf (chars "tree ") (chars "committer " ++ person_info cm ts tz)
      = false from rfl,
    show List.isPrefixOf (chars "parent ") (chars "committer " ++ person_info cm ts tz)
      = false from rfl,
    show List.isPrefixOf (chars "author ") (chars "committer " ++ person_info cm ts tz)
      = false from rfl]
  rw [if_pos (List.isPrefixOf_iff_prefix.mpr (List.prefix_append _ _))]
  have hdrop : (chars "committer " ++ person_info cm ts tz).drop 10 = person_info cm ts tz := rfl
  rw [hdrop]
  unfold person_info
  rw [parse_person_info_round cm tz ts htz]

theorem fold_parents (ps : List PyStr) : ∀ (st : CParse), st.inGpgsig = false →
    st.inMessage = false →
    List.foldlM commit_step st (ps.map (fun p => chars "parent " ++ p))
      = .ok { st with parents := st.parents ++ ps } := by
  induction ps with
  | nil =>
    intro st _ _
    simp only [List.map_nil, List.foldlM_nil, List.append_nil]
    rfl
  | cons p pt ih =>
    intro st hg hm
    rw [List.map_cons, List.foldlM_cons, step_parent st hg hm p, exceptBind_ok,
      ih { st with parents := st.parents ++ [p] } hg hm]
    simp

theorem step_empty (st : CParse) (hg : st.inGpgsig = false) (hm : st.inMessage = false) :
    commit_step st ([] : PyStr) = .ok { st with inMessage := true } := by
  unfold commit_step
  rw [hg, hm]
  simp only [Bool.false_eq_true, if_false,
    show List.isPrefixOf (chars "tree ") ([] : PyStr) = false from rfl,
    show List.isPrefixOf (chars "parent ") ([] : PyStr) = false from rfl,
    show List.isPrefixOf (chars "author ") ([] : PyStr) = false from rfl,
    show List.isPrefixOf (chars "committer ") ([] : PyStr) = false from rfl,
    show List.isPrefixOf (chars "gpgsig ") ([] : PyStr) = false from rfl,
    show List.isPrefixOf (chars "note ") ([] : PyStr) = false from rfl,
    show List.isPrefixOf (chars "template ") ([] : PyStr) = false from rfl]
  rw [if_pos trivial]

theorem step_msg (st : CParse) (hg : st.inGpgsig = false) (hm : st.inMessage = true)
    (l : PyStr) : commit_step st l = .ok { st with messageLines := st.messageLines ++ [l] } := by
  unfold commit_step
  rw [hg]
  simp only [Bool.false_eq_true, if_false]
  rw [hm, if_pos rfl]

theorem splitOnChar_intercalate (sep : Char) :
    ∀ (lines : List PyStr), lines ≠ [] → (∀ l ∈ lines, sep ∉ l) →
      splitOnChar sep (List.intercalate [sep] lines) = lines
  | [], h, _ => absurd rfl h
  | [l], _, hall => by
      rw [show List.intercalate [sep] [l] = l by simp [List.intercalate],
        splitOnChar_no_sep sep l (hall l (by simp))]
  | l :: m :: ms, _, hall => by
      rw [intercalate_cons_of_ne_nil sep l (m :: ms) (by simp),
        splitOnChar_first sep l _ (hall l (by simp)),
        splitOnChar_intercalate sep (m :: ms) (by simp)
          (fun x hx => hall x (by simp [hx]))]

theorem noNl_person_info (p tz : PyStr) (ts : Int) (hp : noNl p) (htz : noNl tz) :
    noNl (person_info p ts tz) := by
  unfold person_info
  exact noNl_append _ _
    (noNl_append _ _
      (noNl_append _ _ (noNl_append _ _ hp (by unfold noNl; decide)) (intChars_no_nl ts))
      (by unfold noNl; decide)) htz

/-- C9: `Commit.serialize` emits both the author line and the committer line
with the commit's single `timestamp`/`timezone` pair (first conjunct: both
lines, formatted from the same two fields, occur in the serializer's `lines`
list).  On the way back, `Commit.deserialize` keeps only the name/email part
of the committer line and discards that line's timestamp and timezone
(second conjunct: parsing a commit text whose committer line carries an
arbitrary `ts2`/`tz2` yields a commit whose `timestamp`/`timezone` come from
the author line alone — `ts2`/`tz2` do not occur in the result), so a
committer timestamp differing from the author's cannot be represented and is
lost on decode. -/
theorem c9_committer_timestamp_discarded :
    (∀ c : CommitL,
        chars "author " ++ person_info c.author c.timestamp c.timezone ∈ commit_lines c ∧
        chars "committer " ++ person_info c.committer c.timestamp c.timezone ∈ commit_lines c) ∧
    (∀ (now ts ts2 : Int) (tr a cm tz tz2 msg : PyStr) (ps : List PyStr),
        noNl tr → (∀ p ∈ ps, noNl p) → noNl a → noNl cm → noNl tz → noNl tz2 →
        noSp tz → noSp tz2 → noNl msg →
        parse_commit_content now (List.intercalate ['\n']
          ((chars "tree " ++ tr) :: (ps.map (fun p => chars "parent " ++ p)
            ++ [chars "author " ++ person_info a ts tz,
                chars "committer " ++ person_info cm ts2 tz2,
                [], msg])))
          = .ok { tree := tr, parents := ps, author := a, committer := cm,
                  message := pyStrip msg, timestamp := ts, timezone := tz,
                  gpgsig := none, notes := [], extraHeaders := [], template := none }) := by
  constructor
  · intro c
    constructor
    · simp [commit_lines]
    · simp [commit_lines]
  · intro now ts ts2 tr a cm tz tz2 msg ps htr hps ha hcm htznl htz2nl htzsp htz2sp hmsg
    have hnl : ∀ l ∈ ((chars "tree " ++ tr) :: (ps.map (fun p => chars "parent " ++ p)
        ++ [chars "author " ++ person_info a ts tz,
            chars "committer " ++ person_info cm ts2 tz2,
            [], msg])), '\n' ∉ l := by
      intro l hl
      rcases List.mem_cons.mp hl with rfl | hl2
      · exact noNl_append _ _ (by unfold noNl; decide) htr
      rcases List.mem_append.mp hl2 with hl3 | hl4
      · obtain ⟨p, hp, rfl⟩ := List.mem_map.mp hl3
        exact noNl_append _ _ (by unfold noNl; decide) (hps p hp)
      rcases List.mem_cons.mp hl4 with rfl | hl5
      · exact noNl_append _ _ (by unfold noNl; decide) (noNl_person_info a tz ts ha htznl)
      rcases List.mem_cons.mp hl5 with rfl | hl6
      · exact noNl_append _ _ (by unfold noNl; decide) (noNl_person_info cm tz2 ts2 hcm htz2nl)
      rcases List.mem_cons.mp hl6 with rfl | hl7
      · exact List.not_mem_nil _
      rcases List.mem_cons.mp hl7 with rfl | hl8
      · exact hmsg
      · exact absurd hl8 (List.not_mem_nil l)
    have hsplit := splitOnChar_intercalate '\n'
      ((chars "tree " ++ tr) :: (ps.map (fun p => chars "parent " ++ p)
        ++ [chars "author " ++ person_info a ts tz,
            chars "committer " ++ person_info cm ts2 tz2,
            [], msg])) (by simp) hnl
    have e1 : commit_step (initCParse now) (chars "tree " ++ tr)
        = .ok ⟨tr, [], [], [], now, chars "+0000", none, [], [], none, [], false, false, []⟩ :=
      step_tree _ rfl rfl tr
    have e2 : List.foldlM commit_step
        (⟨tr, [], [], [], now, chars "+0000", none, [], [], none, [], false, false, []⟩ : CParse)
        (ps.map (fun p => chars "parent " ++ p))
        = .ok ⟨tr, ps, [], [], now, chars "+0000", none, [], [], none, [], false, false, []⟩ :=
      fold_parents ps _ rfl rfl
    have e3 : commit_step
        (⟨tr, ps, [], [], now, chars "+0000", none, [], [], none, [], false, false, []⟩ : CParse)
        (chars "author " ++ person_info a ts tz)
        = .ok ⟨tr, ps, a, [], ts, tz, none, [], [], none, [], false, false, []⟩ :=
      step_author _ rfl rfl a tz ts htzsp
    have e4 : commit_step
        (⟨tr, ps, a, [], ts, tz, none, [], [], none, [], false, false, []⟩ : CParse)
        (chars "committer " ++ person_info cm ts2 tz2)
        = .ok ⟨tr, ps, a, cm, ts, tz, none, [], [], none, [], false, false, []⟩ :=
      step_committer _ rfl rfl cm tz2 ts2 htz2sp
    have e5 : commit_step
        (⟨tr, ps, a, cm, ts, tz, none, [], [], none, [], false, false, []⟩ : CParse)
        ([] : PyStr)
        = .ok ⟨tr, ps, a, cm, ts, tz, none, [], [], none, [], true, false, []⟩ :=
      step_empty _ rfl rfl
    have e6 : commit_step
        (⟨tr, ps, a, cm, ts, tz, none, [], [], none, [], true, false, []⟩ : CParse) msg
        = .ok ⟨tr, ps, a, cm, ts, tz, none, [], [], none, [msg], true, false, []⟩ :=
      step_msg _ rfl rfl msg
    have hfold : List.foldlM commit_step (initCParse now)
        ((chars "tree " ++ tr) :: (ps.map (fun p => chars "parent " ++ p)
          ++ [chars "author " ++ person_info a ts tz,
              chars "committer " ++ person_info cm ts2 tz2,
              [], msg]))
        = .ok ⟨tr, ps, a, cm, ts, tz, none, [], [], none, [msg], true, false, []⟩ := by
      rw [List.foldlM_cons, e1, exceptBind_ok, List.foldlM_append, e2, exceptBind_ok,
        List.foldlM_cons, e3, exceptBind_ok, List.foldlM_cons, e4, exceptBind_ok,
        List.foldlM_cons, e5, exceptBind_ok, List.foldlM_cons, e6, exceptBind_ok,
        List.foldlM_nil]
      rfl
    unfold parse_commit_content
    rw [hsplit, hfold]
    show Except.ok
      ({ tree := tr, parents := ps, author := a, committer := cm,
         message := pyStrip (List.intercalate ['\n'] [msg]), timestamp := ts,
         timezone := tz, gpgsig := none, notes := [], extraHeaders := [],
         template := none } : CommitL) = _
    rw [show List.intercalate ['\n'] [msg] = msg by simp [List.intercalate]]

theorem c9_committer_timestamp_discarded_witness :
    parse_commit_content 0 (List.intercalate ['\n']
      ((chars "tree " ++ sha40a) :: (([] : List PyStr).map (fun p => chars "parent " ++ p)
        ++ [chars "author " ++ person_info (chars "A <a@x>") 5 (chars "+0000"),
            chars "committer " ++ person_info (chars "C <c@x>") 99 (chars "+0530"),
            [], chars "hi"])))
      = .ok { tree := sha40a, parents := [], author := chars "A <a@x>",
              committer := chars "C <c@x>", message := pyStrip (chars "hi"),
              timestamp := 5, timezone := chars "+0000", gpgsig := none,
              notes := [], extraHeaders := [], template := none } :=
  c9_committer_timestamp_discarded.2 0 5 99 sha40a (chars "A <a@x>") (chars "C <c@x>")
    (chars "+0000") (chars "+0530") (chars "hi") []
    (by unfold noNl; decide)
    (fun p hp => absurd hp (List.not_mem_nil p))
    (by unfold noNl; decide) (by unfold noNl; decide) (by unfold noNl; decide)
    (by unfold noNl; decide) (by unfold noSp; decide) (by unfold noSp; decide)
    (by unfold noNl; decide)
